import Mathlib

/-!
Verification development for the prompt-composition engine of
`scribe-works/prompt-scribe` (module `src/promptscribe/composer.py`).

The Python module is shallowly embedded below.  Configuration objects,
agent configurations and variable mappings are dynamically-typed YAML
dictionaries in the source; they are modelled by the tagged value union
`Value` and association lists `VarMap` whose operations mirror Python
`dict` semantics (insertion order preserved, assignment replaces in
place, `update` merges left-to-right).

External collaborators are modelled as explicit parameters, following
the module boundaries of the source:
  * the filesystem becomes `fs : String → FileResult`;
  * the Markdown heading transform used for `fit_headings`
    (markdown-it parse / mdformat render) is modelled separately at the
    token level (`MdTok`) and, inside the composition pipeline, as an
    opaque-parameter-free explicit function argument `mdFit`;
  * the pluggable Jinja template renderer used by template mode becomes
    `tmplRender : String → VarMap → Except String String`.

The Jinja string-substitution behaviour that `_substitute_variables`
relies on is modelled for the fragment subset the configuration language
exercises: literal text, `\x7b\x7b name \x7d\x7d` variable references
(bare identifiers, with arbitrary surrounding whitespace inside the
braces), and the custom `WarningUndefined` handler of the source which
re-emits missing variables as `\x7b\x7b name \x7d\x7d` and warns when the
effective `warn_on_missing` flag is set.  Jinja constructs outside this
subset (statements `\x7b%`, comments `\x7b#`, non-identifier
expressions, helper calls such as `read_file(...)`) are modelled as
substitution errors; the source catches every substitution error and
returns the input text unchanged, which is the behaviour the claims
exercise.  The default environment's lexer preprocessing is modelled
too: `\r\n` and `\r` are normalised to `\n` and one trailing newline
of the template source is stripped (`keep_trailing_newline=False`,
`newline_sequence='\n'`), so rendering is NOT the identity on literal
text that ends in a newline.  The renderer's recursion is driven by a
fuel argument equal to the length of the remaining input, which always
suffices because every emitted token consumes at least one input
character.
-/

/-- Tagged union for dynamically-typed YAML/Python values
(`settings`, `variables`, agent configurations, step values). -/
inductive Value where
  | str (s : String)
  | num (n : Int)
  | bool (b : Bool)
  | list (xs : List Value)
  | dict (entries : List (String × Value))
deriving Repr

/-- A Python `dict` with string keys, in insertion order. -/
abbrev VarMap := List (String × Value)

/-- Python truthiness (`if value:`) for the modelled value union. -/
def pyTruthy : Value → Bool
  | .str s => !s.isEmpty
  | .num n => n != 0
  | .bool b => b
  | .list xs => !xs.isEmpty
  | .dict m => !m.isEmpty

/-- Python `str()` on the modelled value union.  Scalars follow Python
(`True` / `False` for booleans, decimal for integers); the container
forms are never rendered by any configuration the claims exercise and
are given a simplified placeholder rendering. -/
def pyStr : Value → String
  | .str s => s
  | .num n => toString n
  | .bool true => "True"
  | .bool false => "False"
  | .list _ => "[...]"
  | .dict _ => "\x7b...\x7d"

/-- Decimal digits to a natural number. -/
def digitsToNat (ds : List Char) : Nat :=
  ds.foldl (fun n c => n * 10 + (c.toNat - '0'.toNat)) 0

/-- Python `int()` on a decimal string (optional sign, digits).
Non-numeric strings raise in Python and are not modelled (they give 0
here; no claim exercises them). -/
def strToInt (s : String) : Int :=
  match s.data with
  | '-' :: ds => if ds ≠ [] ∧ ds.all Char.isDigit then -(digitsToNat ds : Int) else 0
  | ds => if ds ≠ [] ∧ ds.all Char.isDigit then (digitsToNat ds : Int) else 0

/-- Python `int()` on the modelled value union (used for
`fit_headings`). -/
def pyInt : Value → Int
  | .num n => n
  | .bool true => 1
  | .bool false => 0
  | .str s => strToInt s
  | _ => 0

/-- First-match association-list lookup: Python `d.get(k)`. -/
def dictLookup (m : VarMap) (k : String) : Option Value :=
  match m with
  | [] => none
  | (k', v) :: rest => if k' = k then some v else dictLookup rest k

/-- Python `d.get(k, default)`. -/
def dictGetD (m : VarMap) (k : String) (d : Value) : Value :=
  (dictLookup m k).getD d

/-- Python `d[k] = v`: replaces the value in place if the key is
present, appends otherwise. -/
def dictSet (m : VarMap) (k : String) (v : Value) : VarMap :=
  match m with
  | [] => [(k, v)]
  | (k', v') :: rest => if k' = k then (k, v) :: rest else (k', v') :: dictSet rest k v

/-- Python `d.update(adds)` / `{**d, **adds}`: apply `dictSet`
left-to-right over `adds`. -/
def dictUpdate (m : VarMap) (adds : VarMap) : VarMap :=
  match adds with
  | [] => m
  | (k, v) :: rest => dictUpdate (dictSet m k v) rest

/-- View a value as a dict (`.get` on something that must be a dict in
the source; non-dict values would raise there and are unexercised). -/
def asDict : Value → VarMap
  | .dict m => m
  | _ => []

/-- View a value as a list of steps (`agent_config.get('assembly', [])`). -/
def asList : Value → List Value
  | .list xs => xs
  | _ => []

/-- Warnings surfaced through `ui.warning` during composition. -/
inductive Warning where
  /-- From `WarningUndefined.__str__`: variable not defined, with the
  current file context from `_subst_context`. -/
  | undefinedVar (name : String) (filePath : Option String)
  /-- From `_read_file_content`: `File not found during substitution`. -/
  | fileNotFound (path : String)
  /-- From `_run_simple_assembly`: invalid / empty path or value in an
  `include` step. -/
  | invalidStep (msg : String)
deriving Repr, DecidableEq

/-- The single error type of the source (`PromptScribeError`), carrying
its message. -/
inductive PError where
  | promptScribeError (msg : String)
deriving Repr, DecidableEq

/-- Outcome of reading a path: the modelled filesystem. -/
inductive FileResult where
  | found (content : String)
  | notFound
  | ioError (msg : String)

/-- State `self.dependencies`: agent name → list of consulted paths (a Python
`set`, modelled as a duplicate-free insertion-ordered list). -/
abbrev DepMap := List (String × List String)

/-- Lookup in the dependency map. -/
def depsLookup (deps : DepMap) (agent : String) : Option (List String) :=
  match deps with
  | [] => none
  | (a, ps) :: rest => if a = agent then some ps else depsLookup rest agent

/-- Python `set.add` on a path list. -/
def pathAdd (paths : List String) (p : String) : List String :=
  if p ∈ paths then paths else paths ++ [p]

/-- Python `self.dependencies[agent].add(path)` (the key is known present). -/
def depsAdd (deps : DepMap) (agent : String) (p : String) : DepMap :=
  match deps with
  | [] => []
  | (a, ps) :: rest =>
      if a = agent then (a, pathAdd ps p) :: rest else (a, ps) :: depsAdd rest agent p

/-- Python `self.dependencies[agent] = \x7bself.config_path\x7d`. -/
def depsReset (deps : DepMap) (agent : String) (configPath : String) : DepMap :=
  match deps with
  | [] => [(agent, [configPath])]
  | (a, ps) :: rest =>
      if a = agent then (a, [configPath]) :: rest else (a, ps) :: depsReset rest agent configPath

/-! ## The substitution engine (`_substitute_variables` and the Jinja
fragment subset it relies on) -/

/-- A character allowed in a modelled Jinja identifier. -/
def isIdentChar (c : Char) : Bool :=
  c.isAlphanum || c = '_'

/-- Identifier shape at the character-list level: nonempty, alphabetic
or underscore first character, identifier characters throughout. -/
def isIdentChars : List Char → Bool
  | [] => false
  | c :: cs => (c.isAlpha || c = '_') && cs.all isIdentChar

/-- A modelled Jinja identifier. -/
def isIdentName (s : String) : Bool :=
  isIdentChars s.data

/-- Scan forward to the first closing `\x7d\x7d`, returning the
characters before it and the rest after it (the Jinja lexer's search
for the end of a print expression). -/
def scanToClose : List Char → Option (List Char × List Char)
  | [] => none
  | '}' :: '}' :: rest => some ([], rest)
  | c :: rest => (scanToClose rest).map (fun pr => (c :: pr.1, pr.2))

/-- Strip leading and trailing whitespace from a character list (the
Jinja lexer ignores whitespace around the expression inside braces). -/
def trimChars (l : List Char) : List Char :=
  ((l.dropWhile Char.isWhitespace).reverse.dropWhile Char.isWhitespace).reverse

/-- Python `str.strip()`: strip surrounding whitespace (the common
ASCII whitespace characters). -/
def pyStrip (s : String) : String :=
  String.mk (trimChars s.data)

/-- The newline normalisation of Jinja's default lexer
(`newline_sequence='\n'`): every `\r\n` pair and every lone `\r`
becomes `\n`. -/
def normalizeNewlines : List Char → List Char
  | [] => []
  | '\r' :: '\n' :: rest => '\n' :: normalizeNewlines rest
  | '\r' :: rest => '\n' :: normalizeNewlines rest
  | c :: rest => c :: normalizeNewlines rest

/-- The trailing-newline strip of Jinja's default lexer
(`keep_trailing_newline=False`): one trailing newline of the
(already normalised) template source is removed. -/
def dropTrailingNL (l : List Char) : List Char :=
  if l.getLast? = some '\n' then l.dropLast else l

/-- The source preprocessing Jinja's lexer applies to every template
before tokenising, with the default environment settings the source
uses (composer.py line 72): newline normalisation followed by the
trailing-newline strip. -/
def jinjaPreprocess (l : List Char) : List Char :=
  dropTrailingNL (normalizeNewlines l)

/-- One pass of the modelled Jinja fragment renderer.

Walks the input; a `\x7b\x7b` opens a print expression which must close
with `\x7d\x7d` and contain a bare identifier (other expression forms
are outside the modelled subset and, like Jinja statements `\x7b%` and
comments `\x7b#`, are modelled as errors — the caller catches every
error).  A defined variable is rendered through `pyStr` (Python `str`,
as Jinja output does); an undefined one is re-emitted by the source's
`WarningUndefined.__str__` as `\x7b\x7b name \x7d\x7d`, warning iff
`warn`.  `fuel` bounds the recursion and any `fuel ≥` input length is
exact. -/
def substCore (vars : VarMap) (warn : Bool) (ctx : Option String) :
    Nat → List Char → Except Unit (List Char × List Warning)
  | _, [] => .ok ([], [])
  | 0, _ :: _ => .error ()
  | fuel + 1, '{' :: '{' :: rest =>
      match scanToClose rest with
      | none => .error ()
      | some (inside, rest') =>
          let name := String.mk (trimChars inside)
          if isIdentName name then
            match substCore vars warn ctx fuel rest' with
            | .error e => .error e
            | .ok (out, ws) =>
                match dictLookup vars name with
                | some v => .ok ((pyStr v).data ++ out, ws)
                | none =>
                    .ok (('{' :: '{' :: ' ' :: name.data ++ ' ' :: '}' :: '}' :: []) ++ out,
                         (if warn then [Warning.undefinedVar name ctx] else []) ++ ws)
          else .error ()
  | _ + 1, '{' :: '%' :: _ => .error ()
  | _ + 1, '{' :: '#' :: _ => .error ()
  | fuel + 1, c :: rest =>
      (substCore vars warn ctx fuel rest).map (fun pr => (c :: pr.1, pr.2))

/-- Run the renderer with exactly-sufficient fuel. -/
def substRun (vars : VarMap) (warn : Bool) (ctx : Option String) (l : List Char) :
    Except Unit (List Char × List Warning) :=
  substCore vars warn ctx l.length l

/-- The effective `warn_on_missing` flag read by `_substitute_variables`
(line 241): `variables.get('_settings', \x7b\x7d).get('warn_on_missing', True)`,
under Python truthiness. -/
def warnFlag (vmap : VarMap) : Bool :=
  pyTruthy (dictGetD (asDict (dictGetD vmap "_settings" (.dict []))) "warn_on_missing" (.bool true))

/-- The effective `substitute_in_includes` flag
(`variables.get('_settings', \x7b\x7d).get('substitute_in_includes', True)`). -/
def substituteInIncludesFlag (vmap : VarMap) : Bool :=
  pyTruthy (dictGetD (asDict (dictGetD vmap "_settings" (.dict []))) "substitute_in_includes" (.bool true))

/-- Model of `PromptComposer._substitute_variables` (composer.py lines 233-252):
renders `text` against the mapping through the shared default Jinja
environment, whose lexer first preprocesses the template source
(`jinjaPreprocess`: `\r\n`/`\r` become `\n` and one trailing newline
is stripped); on any template error the ORIGINAL text is returned
unchanged (and no warnings survive, since Jinja parse errors precede
rendering).  The returned warnings model the `ui.warning` calls made by
`WarningUndefined`. -/
def _substitute_variables (text : String) (vmap : VarMap)
    (file_path_context : Option String := none) : String × List Warning :=
  let warn := warnFlag vmap
  match substRun vmap warn file_path_context (jinjaPreprocess text.data) with
  | .ok (out, ws) => (String.mk out, ws)
  | .error _ => (text, [])

/-! ## Paths, file reading, variable resolution -/

/-- Model of `PromptComposer._resolve_path` (lines 91-96): absolute paths pass
through, relative paths are joined under the configuration file's
directory.  (`Path.resolve()` normalisation is not modelled; paths are
treated as opaque strings.) -/
def _resolve_path (base_dir : String) (relative_path : String) : String :=
  if relative_path.data.head? = some '/' then relative_path
  else base_dir ++ "/" ++ relative_path

/-- Model of `PromptComposer._read_file_content` (lines 135-147): resolve the
path, record it into the agent's dependency set (when the agent is
tracked), then read.  A missing file yields the empty string plus a
warning; any other I/O failure raises `PromptScribeError`. -/
def _read_file_content (base_dir : String) (fs : String → FileResult)
    (deps : DepMap) (file_path_str : String) (agent_name : String) :
    Except PError (String × DepMap × List Warning) :=
  let file_path := _resolve_path base_dir file_path_str
  let deps' :=
    if agent_name ≠ "" ∧ (depsLookup deps agent_name).isSome then
      depsAdd deps agent_name file_path
    else deps
  match fs file_path with
  | .found content => .ok (content, deps', [])
  | .notFound => .ok ("", deps', [.fileNotFound file_path_str])
  | .ioError msg =>
      .error (.promptScribeError ("Failed to read file: " ++ file_path_str ++ ": " ++ msg))

/-- The merged pre-expansion variable mapping built inside
`PromptComposer._resolve_variables` (lines 160-167):
`\x7b**global_vars, **agent_vars\x7d`, then `_agent_name`, then the
extra context overlaid on top. -/
def mergedVars (global_vars agent_vars : VarMap) (agent_name : String)
    (extra_context : VarMap) : VarMap :=
  dictUpdate (dictSet (dictUpdate global_vars agent_vars) "_agent_name" (.str agent_name))
    extra_context

/-- The expansion loop of `_resolve_variables` (lines 169-176): every
string value is substituted against the fixed pre-expansion `merged`
mapping; other values pass through. -/
def resolveLoop (merged : VarMap) : VarMap → VarMap × List Warning
  | [] => ([], [])
  | (k, v) :: rest =>
      let (tail, ws) := resolveLoop merged rest
      match v with
      | .str s =>
          let (s', ws') := _substitute_variables s merged
          ((k, .str s') :: tail, ws' ++ ws)
      | v => ((k, v) :: tail, ws)

/-- Model of `PromptComposer._resolve_variables` (lines 149-178), parameterised
by the configuration dictionary:
`agent_config = config.get('agents', \x7b\x7d).get(agent_name, \x7b\x7d)`,
merge global and agent variables, inject `_agent_name`, overlay the
extra context, then expand every string value against the merged
pre-expansion mapping. -/
def configGlobalVars (config : VarMap) : VarMap :=
  asDict (dictGetD config "variables" (.dict []))

/-- Python `config.get('agents', \x7b\x7d).get(agent_name, \x7b\x7d).get('variables', \x7b\x7d)`. -/
def configAgentVars (config : VarMap) (agent_name : String) : VarMap :=
  asDict (dictGetD
    (asDict (dictGetD (asDict (dictGetD config "agents" (.dict []))) agent_name (.dict [])))
    "variables" (.dict []))

def _resolve_variables (config : VarMap) (agent_name : String)
    (extra_context : VarMap) : VarMap × List Warning :=
  let global_vars := configGlobalVars config
  let agent_vars := configAgentVars config agent_name
  let merged := mergedVars global_vars agent_vars agent_name extra_context
  resolveLoop merged merged

/-- composer.py line 22.  The constant is defined by the source module
but is never referenced again anywhere in it. -/
def MAX_SUBSTITUTION_DEPTH : Nat := 10

/-! ## File fetching with optional Markdown heading fitting -/

/-- Model of `PromptComposer._get_and_process_file_content` (lines 180-193):
read the file, then apply the external Markdown heading transform when
a `fit_headings` level was requested.  The transform itself
(markdown-it parse / heading shift / mdformat render) is the external
text transform `mdFit`; its heading-shift core is modelled separately
at the token level as `_process_markdown_content` below. -/
def _get_and_process_file_content (base_dir : String) (fs : String → FileResult)
    (mdFit : String → Int → String) (deps : DepMap) (path : String)
    (agent_name : String) (fit_headings : Option Int) :
    Except PError (String × DepMap × List Warning) :=
  match _read_file_content base_dir fs deps path agent_name with
  | .error e => .error e
  | .ok (content, deps', ws) =>
      match fit_headings with
      | some lvl => .ok (mdFit content lvl, deps', ws)
      | none => .ok (content, deps', ws)

/-! ## The step-sequence assembly strategy (`_run_simple_assembly`) -/

/-- Path / fit-level extraction for an `include` / `include_raw` step
value (lines 278-287): a mapping value supplies `path` (default the
empty string) and, for non-raw includes, a truthy `fit_headings`
converted through `int()`; a plain string value is the path itself;
any other value type yields `none` (the "Invalid value" warning
branch).  A non-string `path` entry inside a mapping would crash the
source further down and is outside the model (treated as the empty
string here, which the source's own empty-path guard then rejects). -/
def pathAndFit (is_raw : Bool) : Value → Option (String × Option Int)
  | .dict m =>
      let fit : Option Int :=
        if is_raw then none
        else
          match dictLookup m "fit_headings" with
          | some fv => if pyTruthy fv then some (pyInt fv) else none
          | none => none
      match dictGetD m "path" (.str "") with
      | .str s => some (s, fit)
      | _ => some ("", fit)
  | .str s => some (s, none)
  | _ => none

/-- The `h`-key recognition of line 317:
`key.startswith('h') and key[1:].isdigit()`, with the level parsed by
`int(key[1:])`.  Any nonempty all-digit suffix is accepted (`h7`,
`h0`, `h10`, ... included); ASCII digits are modelled. -/
def headingLevel? (key : String) : Option Nat :=
  match key.data with
  | 'h' :: rest =>
      if rest ≠ [] ∧ rest.all Char.isDigit then some (digitsToNat rest)
      else none
  | _ => none

/-- The body of the assembly loop (lines 269-319) for one step,
returning the fragment this step contributes (if any), the updated
dependency map and the warnings it emitted. -/
def stepRun (base_dir : String) (fs : String → FileResult)
    (mdFit : String → Int → String) (vars : VarMap) (agent_name : String)
    (step : Value) (deps : DepMap) :
    Except PError (Option String × DepMap × List Warning) :=
  match step with
  | .dict [] => .ok (none, deps, [])
  | .dict ((key, value) :: _) =>
      if key = "include" ∨ key = "include_raw" then
        let is_raw := key = "include_raw"
        match pathAndFit is_raw value with
        | none => .ok (none, deps, [.invalidStep ("Invalid value for step: " ++ key)])
        | some (path, fit_level) =>
            if path = "" then
              .ok (none, deps, [.invalidStep ("Empty path provided to step: " ++ key)])
            else
              let sp := _substitute_variables path vars
              if pyStrip sp.1 = "" then
                .ok (none, deps, sp.2 ++ [.invalidStep ("Invalid path provided to step: " ++ key)])
              else
                match _get_and_process_file_content base_dir fs mdFit deps sp.1 agent_name fit_level with
                | .error e => .error e
                | .ok (file_content, deps', ws1) =>
                    if !is_raw && substituteInIncludesFlag vars then
                      let so := _substitute_variables file_content vars (some sp.1)
                      .ok (some so.1, deps', sp.2 ++ ws1 ++ so.2)
                    else
                      .ok (some file_content, deps', sp.2 ++ ws1)
      else
        let pr := _substitute_variables (pyStr value) vars
        if key = "content" ∨ key = "separator" then
          .ok (some pr.1, deps, pr.2)
        else
          match headingLevel? key with
          | some level =>
              .ok (some (String.mk (List.replicate level '#') ++ " " ++ pr.1), deps, pr.2)
          | none => .ok (none, deps, pr.2)
  | _ => .ok (none, deps, [])

/-- The assembly loop: steps in declaration order, threading the
dependency map and collecting fragments and warnings. -/
def assemblyLoop (base_dir : String) (fs : String → FileResult)
    (mdFit : String → Int → String) (vars : VarMap) (agent_name : String) :
    List Value → DepMap → Except PError (List String × DepMap × List Warning)
  | [], deps => .ok ([], deps, [])
  | step :: rest, deps =>
      match stepRun base_dir fs mdFit vars agent_name step deps with
      | .error e => .error e
      | .ok (part, deps', ws) =>
          match assemblyLoop base_dir fs mdFit vars agent_name rest deps' with
          | .error e => .error e
          | .ok (parts, deps'', ws') => .ok (part.toList ++ parts, deps'', ws ++ ws')

/-- The final join of line 321:
`"\n\n".join(p.strip() for p in parts if p)` — fragments that are
empty (before any trimming) are dropped, the remaining fragments are
trimmed and joined with a blank line. -/
def joinParts (parts : List String) : String :=
  String.intercalate "\n\n" ((parts.filter (fun p => !p.isEmpty)).map pyStrip)

/-- Model of `PromptComposer._run_simple_assembly` (lines 254-321). -/
def _run_simple_assembly (base_dir : String) (fs : String → FileResult)
    (mdFit : String → Int → String) (agent_config : VarMap) (vars : VarMap)
    (agent_name : String) (deps : DepMap) :
    Except PError (String × DepMap × List Warning) :=
  let steps := asList (dictGetD agent_config "assembly" (.list []))
  match assemblyLoop base_dir fs mdFit vars agent_name steps deps with
  | .error e => .error e
  | .ok (parts, deps', ws) => .ok (joinParts parts, deps', ws)

/-! ## Agent composition (`compose_agent`) -/

/-- The external capabilities and loaded state of one `PromptComposer`
instance: configuration path and directory, the parsed configuration
dictionary, the filesystem, the external Markdown fit transform and
the external template renderer (given the resolved templates
directory, a template name and the render context). -/
structure ComposeEnv where
  config_path : String
  base_dir : String
  config : VarMap
  fs : String → FileResult
  mdFit : String → Int → String
  tmplRender : String → String → VarMap → Except String String

/-- Model of `PromptComposer.compose_agent` (lines 354-409), up to and
excluding the output-writing tail (lines 411-425): the result is the
composed text plus the updated dependency map and collected warnings,
exactly what a `dry_run=True` call computes.  Missing agent (or a
falsy agent configuration) and a missing template definition raise
`PromptScribeError`; template-mode rendering failures are wrapped as
`PromptScribeError`. -/
def compose_agent (env : ComposeEnv) (deps : DepMap) (agent_name : String) :
    Except PError (String × DepMap × List Warning) :=
  let agents := asDict (dictGetD env.config "agents" (.dict []))
  match dictLookup agents agent_name with
  | none => .error (.promptScribeError ("Agent not found in configuration: " ++ agent_name))
  | some acv =>
      if !pyTruthy acv then
        .error (.promptScribeError ("Agent not found in configuration: " ++ agent_name))
      else
        let agent_config := asDict acv
        let deps1 := depsReset deps agent_name env.config_path
        let settings := asDict (dictGetD env.config "settings" (.dict []))
        let extra_context : VarMap :=
          [("_settings", .dict
            [("warn_on_missing",
              dictGetD agent_config "warn_on_missing_variables"
                (dictGetD settings "warn_on_missing_variables" (.bool true))),
             ("substitute_in_includes",
              dictGetD agent_config "substitute_in_included_files"
                (dictGetD settings "substitute_in_included_files" (.bool true)))])]
        let rv := _resolve_variables env.config agent_name extra_context
        if (dictLookup agent_config "assembly").isSome then
          match _run_simple_assembly env.base_dir env.fs env.mdFit agent_config rv.1 agent_name deps1 with
          | .error e => .error e
          | .ok (text, deps', ws) => .ok (text, deps', rv.2 ++ ws)
        else
          let tmplVal : Option Value :=
            match dictLookup agent_config "template" with
            | some v => if pyTruthy v then some v else dictLookup settings "template"
            | none => dictLookup settings "template"
          match tmplVal with
          | none => .error (.promptScribeError ("Agent missing template: " ++ agent_name))
          | some tv =>
              if !pyTruthy tv then
                .error (.promptScribeError ("Agent missing template: " ++ agent_name))
              else
                let tn := _substitute_variables (pyStr tv) rv.1
                let templates_dir :=
                  _resolve_path env.base_dir (pyStr (dictGetD settings "templates_dir" (.str "templates")))
                let deps2 := depsAdd deps1 agent_name (templates_dir ++ "/" ++ tn.1)
                match env.tmplRender templates_dir tn.1 rv.1 with
                | .ok text => .ok (text, deps2, rv.2 ++ tn.2)
                | .error e => .error (.promptScribeError ("Jinja2 rendering failed: " ++ e))

/-! ## Markdown heading fitting, at the token level -/

/-- A markdown-it token as far as `_process_markdown_content` inspects
it: a heading (its `heading_open` / `heading_close` pair collapsed to
one token carrying the level) or any other content.  Parsing a
Markdown string into tokens and rendering tokens back are the external
markdown-it / mdformat collaborators. -/
inductive MdTok where
  | heading (level : Int)
  | other (content : String)
deriving Repr, DecidableEq

/-- The `highest_level_found` scan of lines 112-116: the minimum
heading level present, starting from the sentinel 7. -/
def highestLevel (tokens : List MdTok) : Int :=
  tokens.foldl (fun m t => match t with | .heading l => min m l | _ => m) 7

/-- The per-token shift of lines 125-131:
`min(max(1, current_level + shift_delta), 6)` on headings, identity on
everything else. -/
def clampShift (shift_delta : Int) (t : MdTok) : MdTok :=
  match t with
  | .heading l => .heading (min (max 1 (l + shift_delta)) 6)
  | t => t

/-- Model of `PromptComposer._process_markdown_content` (lines 98-133) at the
token level: no headings (sentinel 7 survives) or a zero shift return
the content unchanged; otherwise every heading level is shifted by
`fit_level - highest` and clamped into 1..6
(`min(max(1, current_level + shift_delta), 6)`). -/
def _process_markdown_content (tokens : List MdTok) (fit_level : Int) : List MdTok :=
  let highest := highestLevel tokens
  if highest = 7 then tokens
  else
    let shift_delta := fit_level - highest
    if shift_delta = 0 then tokens
    else tokens.map (clampShift shift_delta)

/-! ## Dependency views -/

/-- The per-path accumulation step of `get_reverse_dependencies`
(lines 330-335): ensure the path has an entry, then append the agent. -/
def revAdd : List (String × List String) → String → String → List (String × List String)
  | [], p, agent => [(p, [agent])]
  | (p', ags) :: rest, p, agent =>
      if p' = p then (p', ags ++ [agent]) :: rest
      else (p', ags) :: revAdd rest p agent

/-- The inner loop over one agent's paths. -/
def revAddAll (acc : List (String × List String)) (paths : List String)
    (agent : String) : List (String × List String) :=
  match paths with
  | [] => acc
  | p :: rest => revAddAll (revAdd acc p agent) rest agent

/-- The outer loop over tracked agents. -/
def revLoop (acc : List (String × List String)) : DepMap → List (String × List String)
  | [] => acc
  | (agent, paths) :: rest => revLoop (revAddAll acc paths agent) rest

/-- Model of `PromptComposer.get_reverse_dependencies` (lines 323-336). -/
def get_reverse_dependencies (deps : DepMap) : List (String × List String) :=
  revLoop [] deps

/-- Model of `PromptComposer.get_all_dependencies` (lines 347-352): the union of
all tracked agents' path sets (Python accumulates into a `set`;
modelled as list concatenation, all claims about it are
membership-level). -/
def get_all_dependencies (deps : DepMap) : List String :=
  deps.foldl (fun acc e => acc ++ e.2) []

/-! ## Lemmas about the substitution engine -/

/-- Input free of the Jinja opening sequences. -/
def noSpecial : List Char → Bool
  | [] => true
  | '{' :: '{' :: _ => false
  | '{' :: '%' :: _ => false
  | '{' :: '#' :: _ => false
  | _ :: rest => noSpecial rest

/-- Text containing no reference syntax: none of the Jinja opening
sequences occur in it. -/
def noRefSyntax (s : String) : Bool := noSpecial s.data

theorem substCore_nil (vars : VarMap) (warn : Bool) (ctx : Option String) (f : Nat) :
    substCore vars warn ctx f [] = .ok ([], []) := by
  cases f <;> rfl

theorem substCore_cons_lit (vars : VarMap) (warn : Bool) (ctx : Option String)
    (f : Nat) (c : Char) (l : List Char)
    (h : ¬(c = '{' ∧ (l.head? = some '{' ∨ l.head? = some '%' ∨ l.head? = some '#'))) :
    substCore vars warn ctx (f + 1) (c :: l) =
      (substCore vars warn ctx f l).map (fun pr => (c :: pr.1, pr.2)) := by
  rw [substCore.eq_def]
  split <;> simp_all

theorem substCore_open_none (vars : VarMap) (warn : Bool) (ctx : Option String)
    (f : Nat) (rest : List Char) (h : scanToClose rest = none) :
    substCore vars warn ctx (f + 1) ('{' :: '{' :: rest) = .error () := by
  rw [substCore.eq_def]
  simp [h]

theorem substCore_open_some (vars : VarMap) (warn : Bool) (ctx : Option String)
    (f : Nat) (rest inside rest' : List Char)
    (h : scanToClose rest = some (inside, rest')) :
    substCore vars warn ctx (f + 1) ('{' :: '{' :: rest) =
      (if isIdentName (String.mk (trimChars inside)) then
        match substCore vars warn ctx f rest' with
        | .error e => .error e
        | .ok (out, ws) =>
            match dictLookup vars (String.mk (trimChars inside)) with
            | some v => .ok ((pyStr v).data ++ out, ws)
            | none =>
                .ok (('{' :: '{' :: ' ' :: (String.mk (trimChars inside)).data ++ ' ' :: '}' :: '}' :: []) ++ out,
                     (if warn then [Warning.undefinedVar (String.mk (trimChars inside)) ctx] else []) ++ ws)
      else .error ()) := by
  rw [substCore.eq_def]
  simp only [h]

theorem substCore_stmt (vars : VarMap) (warn : Bool) (ctx : Option String)
    (f : Nat) (rest : List Char) :
    substCore vars warn ctx (f + 1) ('{' :: '%' :: rest) = .error () := rfl

theorem substCore_comment (vars : VarMap) (warn : Bool) (ctx : Option String)
    (f : Nat) (rest : List Char) :
    substCore vars warn ctx (f + 1) ('{' :: '#' :: rest) = .error () := rfl

theorem scanToClose_length : ∀ {l a r : List Char},
    scanToClose l = some (a, r) → a.length + r.length + 2 = l.length := by
  intro l
  induction l using scanToClose.induct with
  | case1 => intro a r h; simp [scanToClose] at h
  | case2 rest => intro a r h; simp [scanToClose] at h; simp [← h.1, ← h.2]
  | case3 c rest hne ih =>
      intro a r h
      rw [scanToClose.eq_def] at h
      split at h <;> simp_all
      rcases h with ⟨pr, hpr, rfl, rfl⟩
      have := ih hpr
      simp at this ⊢
      omega

theorem noSpecial_cons_eq {c d : Char} {l : List Char}
    (hno : ¬(c = '{' ∧ (d = '{' ∨ d = '%' ∨ d = '#'))) :
    noSpecial (c :: d :: l) = noSpecial (d :: l) := by
  rw [noSpecial.eq_def]
  split <;> simp_all

theorem noSpecial_cons {c : Char} {l : List Char} (h : noSpecial (c :: l) = true) :
    noSpecial l = true ∧
      ¬(c = '{' ∧ (l.head? = some '{' ∨ l.head? = some '%' ∨ l.head? = some '#')) := by
  rcases l with _ | ⟨d, l⟩
  · refine ⟨rfl, ?_⟩
    rintro ⟨rfl, hh | hh | hh⟩ <;> simp at hh
  · by_cases hno : c = '{' ∧ (d = '{' ∨ d = '%' ∨ d = '#')
    · obtain ⟨rfl, hd | hd | hd⟩ := hno <;> (subst hd; simp [noSpecial] at h)
    · rw [noSpecial_cons_eq hno] at h
      refine ⟨h, ?_⟩
      rintro ⟨rfl, hh | hh | hh⟩ <;>
        (simp only [List.head?] at hh; injection hh with hh; exact hno ⟨rfl, by simp [hh]⟩)

theorem substCore_fuel_irrel (vars : VarMap) (warn : Bool) (ctx : Option String) :
    ∀ (f1 : Nat) (l : List Char), ∀ f2, l.length ≤ f1 → l.length ≤ f2 →
      substCore vars warn ctx f1 l = substCore vars warn ctx f2 l := by
  intro f1 l
  induction f1, l using substCore.induct vars warn ctx with
  | case1 t => intro f2 _ _; rw [substCore_nil, substCore_nil]
  | case2 c tl => intro f2 h _; simp at h
  | case3 fuel rest hscan =>
      intro f2 h1 h2
      obtain ⟨g2, rfl⟩ : ∃ g2, f2 = g2 + 1 := ⟨f2 - 1, by simp at h2; omega⟩
      rw [substCore_open_none _ _ _ _ _ hscan, substCore_open_none _ _ _ _ _ hscan]
  | case4 fuel rest inside rest' hscan name hid e herr ih =>
      intro f2 h1 h2
      obtain ⟨g2, rfl⟩ : ∃ g2, f2 = g2 + 1 := ⟨f2 - 1, by simp at h2; omega⟩
      have hlen := scanToClose_length hscan
      rw [substCore_open_some _ _ _ _ _ _ _ hscan, substCore_open_some _ _ _ _ _ _ _ hscan]
      rw [← ih g2 (by simp at h1; omega) (by simp at h2; omega)]
  | case5 fuel rest inside rest' hscan name hid out ws hok v hv ih =>
      intro f2 h1 h2
      obtain ⟨g2, rfl⟩ : ∃ g2, f2 = g2 + 1 := ⟨f2 - 1, by simp at h2; omega⟩
      have hlen := scanToClose_length hscan
      rw [substCore_open_some _ _ _ _ _ _ _ hscan, substCore_open_some _ _ _ _ _ _ _ hscan]
      rw [← ih g2 (by simp at h1; omega) (by simp at h2; omega)]
  | case6 fuel rest inside rest' hscan name hid out ws hok hv ih =>
      intro f2 h1 h2
      obtain ⟨g2, rfl⟩ : ∃ g2, f2 = g2 + 1 := ⟨f2 - 1, by simp at h2; omega⟩
      have hlen := scanToClose_length hscan
      rw [substCore_open_some _ _ _ _ _ _ _ hscan, substCore_open_some _ _ _ _ _ _ _ hscan]
      rw [← ih g2 (by simp at h1; omega) (by simp at h2; omega)]
  | case7 fuel rest inside rest' hscan name hid =>
      intro f2 h1 h2
      obtain ⟨g2, rfl⟩ : ∃ g2, f2 = g2 + 1 := ⟨f2 - 1, by simp at h2; omega⟩
      rw [substCore_open_some _ _ _ _ _ _ _ hscan, substCore_open_some _ _ _ _ _ _ _ hscan]
      simp [hid]
  | case8 n tl =>
      intro f2 h1 h2
      obtain ⟨g2, rfl⟩ : ∃ g2, f2 = g2 + 1 := ⟨f2 - 1, by simp at h2; omega⟩
      rw [substCore_stmt, substCore_stmt]
  | case9 n tl =>
      intro f2 h1 h2
      obtain ⟨g2, rfl⟩ : ∃ g2, f2 = g2 + 1 := ⟨f2 - 1, by simp at h2; omega⟩
      rw [substCore_comment, substCore_comment]
  | case10 fuel c rest hn1 hn2 hn3 ih =>
      intro f2 h1 h2
      obtain ⟨g2, rfl⟩ : ∃ g2, f2 = g2 + 1 := ⟨f2 - 1, by simp at h2; omega⟩
      have hnot : ¬(c = '{' ∧ (rest.head? = some '{' ∨ rest.head? = some '%' ∨ rest.head? = some '#')) := by
        rintro ⟨rfl, hh⟩
        rcases rest with _ | ⟨d, rest⟩
        · simp at hh
        · simp only [List.head?] at hh
          rcases hh with hh | hh | hh <;> (injection hh with hh; subst hh)
          · exact hn1 rest rfl rfl
          · exact hn2 rest rfl rfl
          · exact hn3 rest rfl rfl
      rw [substCore_cons_lit _ _ _ _ _ _ hnot, substCore_cons_lit _ _ _ _ _ _ hnot]
      rw [ih g2 (by simp at h1; omega) (by simp at h2; omega)]

theorem substCore_noSpecial (vars : VarMap) (warn : Bool) (ctx : Option String) :
    ∀ (f : Nat) (l : List Char), l.length ≤ f → noSpecial l = true →
      substCore vars warn ctx f l = .ok (l, []) := by
  intro f
  induction f with
  | zero =>
      intro l hl _
      have : l = [] := by
        cases l with
        | nil => rfl
        | cons c t => simp at hl
      subst this
      rw [substCore_nil]
  | succ f ih =>
      intro l hl hs
      cases l with
      | nil => rw [substCore_nil]
      | cons c t =>
          obtain ⟨ht, hnot⟩ := noSpecial_cons hs
          rw [substCore_cons_lit _ _ _ _ _ _ hnot]
          rw [ih t (by simp at hl; omega) ht]
          rfl

theorem substRun_noSpecial (vars : VarMap) (warn : Bool) (ctx : Option String)
    (l : List Char) (hs : noSpecial l = true) :
    substRun vars warn ctx l = .ok (l, []) :=
  substCore_noSpecial vars warn ctx l.length l le_rfl hs

theorem substRun_append_lit (vars : VarMap) (warn : Bool) (ctx : Option String) :
    ∀ (pre rest : List Char), noSpecial pre = true → pre.getLast? ≠ some '{' →
      substRun vars warn ctx (pre ++ rest) =
        (substRun vars warn ctx rest).map (fun pr => (pre ++ pr.1, pr.2)) := by
  intro pre
  induction pre with
  | nil =>
      intro rest _ _
      rcases h : substRun vars warn ctx rest with e | ⟨o, w⟩ <;> simp [h, Except.map]
  | cons c pre ih =>
      intro rest hs hb
      have hnot : ¬(c = '{' ∧ ((pre ++ rest).head? = some '{' ∨ (pre ++ rest).head? = some '%'
          ∨ (pre ++ rest).head? = some '#')) := by
        cases pre with
        | nil =>
            rintro ⟨rfl, _⟩
            exact hb (by simp)
        | cons d pre' =>
            obtain ⟨_, hnot'⟩ := noSpecial_cons hs
            rintro ⟨rfl, hh⟩
            exact hnot' ⟨rfl, by simpa using hh⟩
      have hfi : substCore vars warn ctx (pre.length + rest.length) (pre ++ rest) =
          substRun vars warn ctx (pre ++ rest) := by
        apply substCore_fuel_irrel <;> simp
      have hstep : substRun vars warn ctx (c :: pre ++ rest) =
          (substCore vars warn ctx (pre.length + rest.length) (pre ++ rest)).map
            (fun pr => (c :: pr.1, pr.2)) := by
        have : (c :: pre ++ rest).length = (pre.length + rest.length) + 1 := by
          simp only [List.cons_append, List.length_cons, List.length_append]
        rw [substRun, this]
        exact substCore_cons_lit _ _ _ _ _ _ hnot
      rw [hstep, hfi]
      have hb' : pre.getLast? ≠ some '{' := by
        cases pre with
        | nil => simp
        | cons d pre' =>
            intro hcontra
            exact hb (by rw [List.getLast?_cons_cons]; exact hcontra)
      rw [ih rest (noSpecial_cons hs).1 hb']
      rcases h : substRun vars warn ctx rest with e | ⟨o, w⟩ <;> simp [h, Except.map]

/-- No closing `\x7d\x7d` anywhere in the input. -/
def noClose : List Char → Bool
  | [] => true
  | '}' :: '}' :: _ => false
  | _ :: rest => noClose rest

theorem scanToClose_of_noClose : ∀ {l : List Char}, noClose l = true →
    scanToClose l = none := by
  intro l
  induction l using noClose.induct with
  | case1 => intro _; rfl
  | case2 rest => intro h; simp [noClose] at h
  | case3 c rest hne ih =>
      intro h
      have hrec : noClose rest = true := by
        rw [noClose.eq_def] at h
        split at h <;> simp_all
      rw [scanToClose.eq_def]
      split <;> simp_all [noClose]

/-- Free of carriage returns (newline normalisation is the identity
on such text). -/
def noCR (l : List Char) : Bool :=
  l.all (fun c => c != '\r')

theorem noCR_iff {l : List Char} : noCR l = true ↔ ∀ c ∈ l, c ≠ '\r' := by
  simp [noCR]

theorem normalizeNewlines_cons_ne {c : Char} (rest : List Char) (h : c ≠ '\r') :
    normalizeNewlines (c :: rest) = c :: normalizeNewlines rest := by
  rw [normalizeNewlines.eq_def]
  split <;> simp_all

theorem normalizeNewlines_cr (rest : List Char) (h : rest.head? ≠ some '\n') :
    normalizeNewlines ('\r' :: rest) = '\n' :: normalizeNewlines rest := by
  rcases rest with _ | ⟨d, rest⟩
  · rfl
  · by_cases hd : d = '\n'
    · subst hd; simp at h
    · rw [normalizeNewlines.eq_def]
      split <;> try simp_all
      rename_i hnot heq
      exact absurd heq.1.symm hnot

theorem normalizeNewlines_crlf (rest : List Char) :
    normalizeNewlines ('\r' :: '\n' :: rest) = '\n' :: normalizeNewlines rest := rfl

theorem normalizeNewlines_id {l : List Char} (h : ∀ c ∈ l, c ≠ '\r') :
    normalizeNewlines l = l := by
  induction l with
  | nil => rfl
  | cons c rest ih =>
      rw [normalizeNewlines_cons_ne rest (h c (by simp))]
      rw [ih (fun d hd => h d (by simp [hd]))]

theorem dropTrailingNL_id {l : List Char} (h : l.getLast? ≠ some '\n') :
    dropTrailingNL l = l := by
  unfold dropTrailingNL
  simp [h]

theorem jinjaPreprocess_id {l : List Char} (hcr : ∀ c ∈ l, c ≠ '\r')
    (hnl : l.getLast? ≠ some '\n') : jinjaPreprocess l = l := by
  unfold jinjaPreprocess
  rw [normalizeNewlines_id hcr, dropTrailingNL_id hnl]

theorem normalizeNewlines_ne_nil {l : List Char} (h : l ≠ []) :
    normalizeNewlines l ≠ [] := by
  induction l using normalizeNewlines.induct with
  | case1 => exact absurd rfl h
  | case2 rest ih => simp [normalizeNewlines]
  | case3 rest hne ih =>
      have hh : rest.head? ≠ some '\n' := by
        rcases rest with _ | ⟨d, rest⟩
        · simp
        · intro hc
          simp only [List.head?] at hc
          injection hc with hc
          subst hc
          exact hne rest rfl
      rw [normalizeNewlines_cr rest hh]
      simp
  | case4 c rest h1 h2 ih =>
      have hc : c ≠ '\r' := by
        intro hcr
        first
        | exact h2 hcr
        | exact h2 rest hcr rfl
        | exact h2 hcr rfl
      rw [normalizeNewlines_cons_ne rest hc]
      simp

theorem normalizeNewlines_head (l : List Char) :
    (normalizeNewlines l).head? = none ∨ (normalizeNewlines l).head? = some '\n' ∨
      (normalizeNewlines l).head? = l.head? := by
  rcases l with _ | ⟨c, rest⟩
  · exact Or.inl rfl
  · by_cases hc : c = '\r'
    · subst hc
      rcases rest with _ | ⟨d, rest⟩
      · right; left; rfl
      · by_cases hd : d = '\n'
        · subst hd; right; left; rfl
        · right; left
          rw [normalizeNewlines_cr (d :: rest) (by simp [hd])]
          rfl
    · rw [normalizeNewlines_cons_ne rest hc]
      right; right; rfl

/-- Reference-free text with no carriage return and no trailing
newline renders to itself with no warnings (helper shared by several
claims): on such text the lexer preprocessing is the identity and
every character is literal. -/
theorem subst_noRef (s : String) (vars : VarMap) (ctx : Option String)
    (h : noRefSyntax s = true) (hcr : noCR s.data = true)
    (hnl : s.data.getLast? ≠ some '\n') :
    _substitute_variables s vars ctx = (s, []) := by
  simp only [_substitute_variables]
  rw [jinjaPreprocess_id (noCR_iff.mp hcr) hnl]
  rw [substRun_noSpecial _ _ _ _ h]

/-- C3 counterexample: the source's default Jinja environment strips
one trailing newline from every template, so expansion is NOT the
identity on reference-free text — `"x\n"` expands to `"x"` — and it is
not idempotent on it either: `"a\n\n"` expands to `"a\n"`, which
expands again to `"a"`. -/
theorem C3_counterexample :
    (_substitute_variables "x\n" [] none).1 = "x" ∧ ("x" : String) ≠ "x\n" ∧
      (_substitute_variables "a\n\n" [] none).1 = "a\n" ∧
      (_substitute_variables "a\n\n" [] none).1 ≠ "a\n\n" ∧
      (_substitute_variables (_substitute_variables "a\n\n" [] none).1 [] none).1 = "a" ∧
      ("a" : String) ≠ "a\n" :=
  ⟨by decide, by decide, by decide, by decide, by decide, by decide⟩

/-- C3 (amended): expanding reference-free text returns it with
`\r\n`/`\r` normalised to `\n` and one trailing newline stripped
(the default Jinja lexer preprocessing), with no warnings; hence on
reference-free text containing no carriage return and not ending in a
newline, expansion is the identity under every variable mapping, and
there expanding a second time returns the same string. -/
theorem C3_reference_free_amended (s : String) (vars : VarMap) (ctx : Option String) :
    (noSpecial (jinjaPreprocess s.data) = true →
      _substitute_variables s vars ctx = (String.mk (jinjaPreprocess s.data), [])) ∧
    (noRefSyntax s = true → noCR s.data = true → s.data.getLast? ≠ some '\n' →
      (_substitute_variables s vars ctx).1 = s ∧
        (_substitute_variables (_substitute_variables s vars ctx).1 vars ctx).1 =
          (_substitute_variables s vars ctx).1) := by
  constructor
  · intro h
    simp only [_substitute_variables]
    rw [substRun_noSpecial _ _ _ _ h]
  · intro h hcr hnl
    have hmain := subst_noRef s vars ctx h hcr hnl
    refine ⟨by rw [hmain], ?_⟩
    rw [hmain, hmain]

theorem C3_reference_free_amended_witness :
    (_substitute_variables "hello world" [("x", Value.str "1")] none).1 = "hello world" ∧
      _substitute_variables "x\n" [] none = (String.mk (jinjaPreprocess "x\n".data), []) :=
  ⟨((C3_reference_free_amended "hello world" [("x", Value.str "1")] none).2
      (by decide) (by decide) (by decide)).1,
   (C3_reference_free_amended "x\n" [] none).1 (by decide)⟩

theorem getLast?_cons_ne {a : Char} {l : List Char} (h : l ≠ []) :
    (a :: l).getLast? = l.getLast? := by
  rcases l with _ | ⟨b, l⟩
  · exact absurd rfl h
  · exact List.getLast?_cons_cons

theorem noSpecial_single (c : Char) : noSpecial [c] = true := by
  rw [noSpecial.eq_def]
  split <;> simp_all [noSpecial]

theorem noSpecial_build {c : Char} {l : List Char} (hl : noSpecial l = true)
    (hc : ¬(c = '{' ∧ (l.head? = some '{' ∨ l.head? = some '%' ∨ l.head? = some '#'))) :
    noSpecial (c :: l) = true := by
  rcases l with _ | ⟨d, l⟩
  · exact noSpecial_single c
  · rw [noSpecial_cons_eq ?_]
    · exact hl
    · rintro ⟨rfl, hd⟩
      apply hc
      exact ⟨rfl, by rcases hd with rfl | rfl | rfl <;> simp⟩

theorem noClose_single (c : Char) : noClose [c] = true := by
  rw [noClose.eq_def]
  split <;> simp_all [noClose]

theorem noClose_cons_eq {c d : Char} {l : List Char} (hno : ¬(c = '}' ∧ d = '}')) :
    noClose (c :: d :: l) = noClose (d :: l) := by
  rw [noClose.eq_def]
  split <;> simp_all

theorem noClose_cons {c : Char} {l : List Char} (h : noClose (c :: l) = true) :
    noClose l = true ∧ ¬(c = '}' ∧ l.head? = some '}') := by
  rcases l with _ | ⟨d, l⟩
  · refine ⟨rfl, ?_⟩
    rintro ⟨rfl, hh⟩
    simp at hh
  · by_cases hno : c = '}' ∧ d = '}'
    · obtain ⟨rfl, rfl⟩ := hno
      simp [noClose] at h
    · rw [noClose_cons_eq hno] at h
      refine ⟨h, ?_⟩
      rintro ⟨rfl, hh⟩
      simp only [List.head?] at hh
      injection hh with hh
      exact hno ⟨rfl, hh⟩

theorem noClose_build {c : Char} {l : List Char} (hl : noClose l = true)
    (hc : ¬(c = '}' ∧ l.head? = some '}')) : noClose (c :: l) = true := by
  rcases l with _ | ⟨d, l⟩
  · exact noClose_single c
  · rw [noClose_cons_eq ?_]
    · exact hl
    · rintro ⟨rfl, rfl⟩
      exact hc ⟨rfl, rfl⟩

theorem noSpecial_normalize {l : List Char} (h : noSpecial l = true) :
    noSpecial (normalizeNewlines l) = true := by
  induction l using normalizeNewlines.induct with
  | case1 => exact h
  | case2 rest ih =>
      have h2 : noSpecial rest = true := (noSpecial_cons (noSpecial_cons h).1).1
      apply noSpecial_build (ih h2)
      rintro ⟨hcon, _⟩
      exact absurd hcon (by decide)
  | case3 rest hne ih =>
      have hh : rest.head? ≠ some '\n' := by
        rcases rest with _ | ⟨d, rest⟩
        · simp
        · intro hcon
          simp only [List.head?] at hcon
          injection hcon with hcon
          subst hcon
          exact hne rest rfl
      have h2 : noSpecial rest = true := (noSpecial_cons h).1
      rw [normalizeNewlines_cr rest hh]
      apply noSpecial_build (ih h2)
      rintro ⟨hcon, _⟩
      exact absurd hcon (by decide)
  | case4 c rest h1 h2 ih =>
      have hcne : c ≠ '\r' := by
        intro hcr
        first
        | exact h2 hcr
        | exact h2 rest hcr rfl
        | exact h2 hcr rfl
      obtain ⟨hrest, hhead⟩ := noSpecial_cons h
      rw [normalizeNewlines_cons_ne rest hcne]
      apply noSpecial_build (ih hrest)
      rintro ⟨rfl, hh⟩
      rcases normalizeNewlines_head rest with h0 | h0 | h0
      · rcases hh with hh | hh | hh <;> (rw [h0] at hh; cases hh)
      · rcases hh with hh | hh | hh <;>
          (rw [h0] at hh; injection hh with hh; exact absurd hh (by decide))
      · rw [h0] at hh
        exact hhead ⟨rfl, hh⟩

theorem noClose_normalize {l : List Char} (h : noClose l = true) :
    noClose (normalizeNewlines l) = true := by
  induction l using normalizeNewlines.induct with
  | case1 => exact h
  | case2 rest ih =>
      have h2 : noClose rest = true := (noClose_cons (noClose_cons h).1).1
      apply noClose_build (ih h2)
      rintro ⟨hcon, _⟩
      exact absurd hcon (by decide)
  | case3 rest hne ih =>
      have hh : rest.head? ≠ some '\n' := by
        rcases rest with _ | ⟨d, rest⟩
        · simp
        · intro hcon
          simp only [List.head?] at hcon
          injection hcon with hcon
          subst hcon
          exact hne rest rfl
      have h2 : noClose rest = true := (noClose_cons h).1
      rw [normalizeNewlines_cr rest hh]
      apply noClose_build (ih h2)
      rintro ⟨hcon, _⟩
      exact absurd hcon (by decide)
  | case4 c rest h1 h2 ih =>
      have hcne : c ≠ '\r' := by
        intro hcr
        first
        | exact h2 hcr
        | exact h2 rest hcr rfl
        | exact h2 hcr rfl
      obtain ⟨hrest, hhead⟩ := noClose_cons h
      rw [normalizeNewlines_cons_ne rest hcne]
      apply noClose_build (ih hrest)
      rintro ⟨rfl, hh⟩
      rcases normalizeNewlines_head rest with h0 | h0 | h0
      · rw [h0] at hh; cases hh
      · rw [h0] at hh; injection hh with hh; exact absurd hh (by decide)
      · rw [h0] at hh
        exact hhead ⟨rfl, hh⟩

theorem normalizeNewlines_getLast {l : List Char} {c : Char} (hc : c ≠ '\n') :
    (normalizeNewlines l).getLast? = some c → l.getLast? = some c := by
  induction l using normalizeNewlines.induct with
  | case1 => intro h; simp [normalizeNewlines] at h
  | case2 rest ih =>
      intro h
      rw [normalizeNewlines_crlf] at h
      by_cases hr : rest = []
      · subst hr
        simp [normalizeNewlines] at h
        exact absurd h.symm hc
      · have hnn := normalizeNewlines_ne_nil hr
        rw [getLast?_cons_ne hnn] at h
        rw [List.getLast?_cons_cons, getLast?_cons_ne hr]
        exact ih h
  | case3 rest hne ih =>
      intro h
      have hh : rest.head? ≠ some '\n' := by
        rcases rest with _ | ⟨d, rest⟩
        · simp
        · intro hcon
          simp only [List.head?] at hcon
          injection hcon with hcon
          subst hcon
          exact hne rest rfl
      rw [normalizeNewlines_cr rest hh] at h
      by_cases hr : rest = []
      · subst hr
        simp [normalizeNewlines] at h
        exact absurd h.symm hc
      · have hnn := normalizeNewlines_ne_nil hr
        rw [getLast?_cons_ne hnn] at h
        rw [getLast?_cons_ne hr]
        exact ih h
  | case4 c' rest h1 h2 ih =>
      intro h
      have hcne : c' ≠ '\r' := by
        intro hcr
        first
        | exact h2 hcr
        | exact h2 rest hcr rfl
        | exact h2 hcr rfl
      rw [normalizeNewlines_cons_ne rest hcne] at h
      by_cases hr : rest = []
      · subst hr
        simpa [normalizeNewlines] using h
      · have hnn := normalizeNewlines_ne_nil hr
        rw [getLast?_cons_ne hnn] at h
        rw [getLast?_cons_ne hr]
        exact ih h

theorem normalizeNewlines_append {rest : List Char} (hhd : rest.head? ≠ some '\n') :
    ∀ l : List Char,
      normalizeNewlines (l ++ rest) = normalizeNewlines l ++ normalizeNewlines rest := by
  intro l
  induction l using normalizeNewlines.induct with
  | case1 => rfl
  | case2 rest' ih =>
      show normalizeNewlines ('\r' :: '\n' :: (rest' ++ rest)) = _
      rw [normalizeNewlines, ih]
      rfl
  | case3 rest' hne ih =>
      have hh : rest'.head? ≠ some '\n' := by
        rcases rest' with _ | ⟨d, rest'⟩
        · simp
        · intro hcon
          simp only [List.head?] at hcon
          injection hcon with hcon
          subst hcon
          exact hne rest' rfl
      have hh2 : (rest' ++ rest).head? ≠ some '\n' := by
        rcases rest' with _ | ⟨d, rest'⟩
        · simpa using hhd
        · simpa using hh
      show normalizeNewlines ('\r' :: (rest' ++ rest)) = _
      rw [normalizeNewlines_cr _ hh2, ih, normalizeNewlines_cr _ hh]
      rfl
  | case4 c rest' h1 h2 ih =>
      have hcne : c ≠ '\r' := by
        intro hcr
        first
        | exact h2 hcr
        | exact h2 rest' hcr rfl
        | exact h2 hcr rfl
      show normalizeNewlines (c :: (rest' ++ rest)) = _
      rw [normalizeNewlines_cons_ne _ hcne, ih, normalizeNewlines_cons_ne _ hcne]
      rfl

theorem noClose_append_left {l1 l2 : List Char} (h : noClose (l1 ++ l2) = true) :
    noClose l1 = true := by
  induction l1 with
  | nil => rfl
  | cons c l1 ih =>
      obtain ⟨h2, hc⟩ := noClose_cons (l := l1 ++ l2) h
      apply noClose_build (ih h2)
      rintro ⟨rfl, hh⟩
      apply hc
      refine ⟨rfl, ?_⟩
      rcases l1 with _ | ⟨d, l1⟩
      · simp at hh
      · simpa using hh

theorem noClose_dropLast {l : List Char} (h : noClose l = true) :
    noClose l.dropLast = true := by
  by_cases hl : l = []
  · subst hl; exact h
  · have := List.dropLast_concat_getLast hl
    rw [← this] at h
    exact noClose_append_left h

theorem dropLast_cons_cons_ne {a b : Char} {l : List Char} (h : l ≠ []) :
    (a :: b :: l).dropLast = a :: b :: l.dropLast := by
  rcases l with _ | ⟨c, l⟩
  · exact absurd rfl h
  · rfl

/-- C10: whenever the modelled renderer fails on the text the engine
actually renders (the lexer-preprocessed source — a template error,
e.g. malformed reference syntax), the substitution engine returns the
original input text unchanged and the error is not propagated; in
particular any text whose reference opener is never closed is returned
unchanged. -/
theorem C10_substitution_errors_return_input (text : String) (vars : VarMap)
    (ctx : Option String) :
    (∀ e, substRun vars (warnFlag vars) ctx (jinjaPreprocess text.data) = .error e →
        _substitute_variables text vars ctx = (text, [])) ∧
    (∀ (pre tl : String), text = pre ++ "\x7b\x7b" ++ tl →
        noRefSyntax pre = true → pre.data.getLast? ≠ some '{' →
        noClose tl.data = true →
        _substitute_variables text vars ctx = (text, [])) := by
  constructor
  · intro e herr
    simp only [_substitute_variables]
    rw [herr]
  · rintro pre tl rfl hpre hpre2 hcl
    have hdata : (pre ++ "\x7b\x7b" ++ tl).data = pre.data ++ ('{' :: '{' :: tl.data) := by
      simp [String.data_append]
    have hpre_d : noSpecial pre.data = true := hpre
    have hnpre_s : noSpecial (normalizeNewlines pre.data) = true :=
      noSpecial_normalize hpre_d
    have hnpre_l : (normalizeNewlines pre.data).getLast? ≠ some '{' := by
      intro hl
      exact hpre2 (normalizeNewlines_getLast (by decide) hl)
    have hntl_c : noClose (normalizeNewlines tl.data) = true := noClose_normalize hcl
    have hdist : normalizeNewlines (pre.data ++ ('{' :: '{' :: tl.data)) =
        normalizeNewlines pre.data ++ ('{' :: '{' :: normalizeNewlines tl.data) := by
      rw [normalizeNewlines_append (by simp) pre.data,
          normalizeNewlines_cons_ne _ (by decide),
          normalizeNewlines_cons_ne _ (by decide)]
    have main : ∀ X : List Char, noClose X = true →
        substRun vars (warnFlag vars) ctx
          (normalizeNewlines pre.data ++ ('{' :: '{' :: X)) = .error () := by
      intro X hX
      rw [substRun_append_lit _ _ _ _ _ hnpre_s hnpre_l]
      have herr : substRun vars (warnFlag vars) ctx ('{' :: '{' :: X) = .error () := by
        have hlen : ('{' :: '{' :: X).length = (X.length + 1) + 1 := by simp
        rw [substRun, hlen, substCore_open_none]
        exact scanToClose_of_noClose hX
      rw [herr]
      rfl
    have hrun : substRun vars (warnFlag vars) ctx
        (jinjaPreprocess (pre.data ++ ('{' :: '{' :: tl.data))) = .error () := by
      unfold jinjaPreprocess dropTrailingNL
      rw [hdist]
      by_cases hlast : (normalizeNewlines pre.data ++
          ('{' :: '{' :: normalizeNewlines tl.data)).getLast? = some '\n'
      · rw [if_pos hlast]
        have hntl_ne : normalizeNewlines tl.data ≠ [] := by
          intro h0
          rw [h0, List.getLast?_append_of_ne_nil _ (by simp)] at hlast
          exact absurd hlast (by decide)
        rw [List.dropLast_append_cons, dropLast_cons_cons_ne hntl_ne]
        exact main _ (noClose_dropLast hntl_c)
      · rw [if_neg hlast]
        exact main _ hntl_c
    simp only [_substitute_variables]
    rw [hdata, hrun]

theorem C10_substitution_errors_return_input_witness :
    _substitute_variables ("a" ++ "\x7b\x7b" ++ " b") [("x", Value.str "1")] none =
      ("a" ++ "\x7b\x7b" ++ " b", []) :=
  (C10_substitution_errors_return_input ("a" ++ "\x7b\x7b" ++ " b") [("x", Value.str "1")] none).2
    "a" " b" (by decide) (by decide) (by decide) (by decide)

/-! ## Claim C1: circular variable references -/

/-- The circular-reference configuration of claim C1: global variables
`A` and `B` each defined as a reference to the other, and an agent
whose assembly renders `A`. -/
def circularEnv : ComposeEnv where
  config_path := "/cfg/prompts.yml"
  base_dir := "/cfg"
  config :=
    [("variables", .dict [("A", .str "\x7b\x7bB\x7d\x7d"), ("B", .str "\x7b\x7bA\x7d\x7d")]),
     ("agents", .dict
       [("main", .dict [("assembly", .list [.dict [("content", .str "\x7b\x7bA\x7d\x7d")]])])])]
  fs := fun _ => .notFound
  mdFit := fun s _ => s
  tmplRender := fun _ _ _ => .error "unused"

/-- C1: composing an agent whose context contains the circular pair
`A = \x7b\x7bB\x7d\x7d`, `B = \x7b\x7bA\x7d\x7d` does NOT fail with any
depth-exceeded condition: expansion is single-pass (a substituted
value is never re-expanded), so composition succeeds, returning the
still-unexpanded placeholder, and `MAX_SUBSTITUTION_DEPTH` — though
defined as 10 — is never consulted by the engine. -/
theorem C1_circular_reference_composition_succeeds :
    compose_agent circularEnv [] "main" =
      .ok ("\x7b\x7bA\x7d\x7d", [("main", ["/cfg/prompts.yml"])], []) ∧
      MAX_SUBSTITUTION_DEPTH = 10 :=
  ⟨rfl, rfl⟩

/-! ## Claim C4: the assembly join -/

/-- The spec's description of the join, for comparison with the
source's `joinParts`: trim each fragment, drop fragments that are
empty after trimming, join the rest with a blank line. -/
def specJoinFragments (parts : List String) : String :=
  String.intercalate "\n\n" ((parts.map pyStrip).filter (fun p => !p.isEmpty))

/-- The text outcome of one file read, independent of dependency
recording. -/
def readText (base_dir : String) (fs : String → FileResult) (p : String) :
    Except PError String :=
  match fs (_resolve_path base_dir p) with
  | .found content => .ok content
  | .notFound => .ok ""
  | .ioError msg =>
      .error (.promptScribeError ("Failed to read file: " ++ p ++ ": " ++ msg))

theorem read_file_content_text (base_dir : String) (fs : String → FileResult)
    (deps : DepMap) (p an : String) :
    (_read_file_content base_dir fs deps p an).map (fun r => r.1) = readText base_dir fs p := by
  unfold _read_file_content readText
  cases hfs : fs (_resolve_path base_dir p) <;> simp [hfs, Except.map]

/-- The text outcome of one file read plus optional heading fitting. -/
def procText (base_dir : String) (fs : String → FileResult)
    (mdFit : String → Int → String) (p : String) (fit : Option Int) :
    Except PError String :=
  (readText base_dir fs p).map (fun c =>
    match fit with
    | some lvl => mdFit c lvl
    | none => c)

theorem get_and_process_text (base_dir : String) (fs : String → FileResult)
    (mdFit : String → Int → String) (deps : DepMap) (p an : String) (fit : Option Int) :
    (_get_and_process_file_content base_dir fs mdFit deps p an fit).map (fun r => r.1) =
      procText base_dir fs mdFit p fit := by
  unfold _get_and_process_file_content procText
  rw [← read_file_content_text base_dir fs deps p an]
  cases hr : _read_file_content base_dir fs deps p an <;> cases fit <;>
    simp [hr, Except.map]

/-- The fragment a single step contributes (none when it is skipped),
independent of dependency recording and warnings. -/
def stepText (base_dir : String) (fs : String → FileResult)
    (mdFit : String → Int → String) (vars : VarMap) (an : String) :
    Value → Except PError (Option String)
  | .dict [] => .ok none
  | .dict ((key, value) :: _) =>
      if key = "include" ∨ key = "include_raw" then
        let is_raw := key = "include_raw"
        match pathAndFit is_raw value with
        | none => .ok none
        | some (path, fit) =>
            if path = "" then .ok none
            else
              let sp := _substitute_variables path vars
              if pyStrip sp.1 = "" then .ok none
              else
                match procText base_dir fs mdFit sp.1 fit with
                | .error e => .error e
                | .ok content =>
                    if !is_raw && substituteInIncludesFlag vars then
                      .ok (some (_substitute_variables content vars (some sp.1)).1)
                    else .ok (some content)
      else
        let pr := _substitute_variables (pyStr value) vars
        if key = "content" ∨ key = "separator" then .ok (some pr.1)
        else
          match headingLevel? key with
          | some level =>
              .ok (some (String.mk (List.replicate level '#') ++ " " ++ pr.1))
          | none => .ok none
  | _ => .ok none

theorem stepRun_text (base_dir : String) (fs : String → FileResult)
    (mdFit : String → Int → String) (vars : VarMap) (an : String)
    (step : Value) (deps : DepMap) :
    (stepRun base_dir fs mdFit vars an step deps).map (fun r => r.1) =
      stepText base_dir fs mdFit vars an step := by
  cases step with
  | dict entries =>
      cases entries with
      | nil => rfl
      | cons kv rest =>
          obtain ⟨key, value⟩ := kv
          by_cases hk : key = "include" ∨ key = "include_raw"
          · simp only [stepRun, stepText, hk, if_true]
            cases hpf : pathAndFit (key = "include_raw") value with
            | none => simp [Except.map]
            | some pf =>
                obtain ⟨path, fit⟩ := pf
                by_cases hp : path = ""
                · simp [hp, Except.map]
                · simp only [hp, if_false, if_neg hp]
                  by_cases hs : pyStrip (_substitute_variables path vars).1 = ""
                  · simp [hs, Except.map]
                  · simp only [hs, if_false, if_neg hs]
                    have hg := get_and_process_text base_dir fs mdFit deps
                      (_substitute_variables path vars).1 an fit
                    cases hgp : _get_and_process_file_content base_dir fs mdFit deps
                        (_substitute_variables path vars).1 an fit with
                    | error e =>
                        rw [hgp] at hg
                        simp [Except.map] at hg
                        simp [← hg, Except.map]
                    | ok r =>
                        rw [hgp] at hg
                        simp [Except.map] at hg
                        obtain ⟨content, deps', ws⟩ := r
                        simp only at hg
                        rw [← hg]
                        by_cases hsub : (!decide (key = "include_raw") && substituteInIncludesFlag vars) = true
                        · simp [hsub, Except.map]
                        · simp only [Bool.not_eq_true] at hsub
                          simp [hsub, Except.map]
          · simp only [stepRun, stepText, hk, if_false]
            by_cases hck : key = "content" ∨ key = "separator"
            · simp [hck, Except.map]
            · simp only [hck, if_false]
              cases hl : headingLevel? key <;> simp [hl, Except.map, hck]
  | str s => rfl
  | num n => rfl
  | bool b => rfl
  | list xs => rfl

/-- The fragments produced by a step sequence, in order. -/
def partsOf (base_dir : String) (fs : String → FileResult)
    (mdFit : String → Int → String) (vars : VarMap) (an : String) :
    List Value → Except PError (List String)
  | [] => .ok []
  | step :: rest =>
      match stepText base_dir fs mdFit vars an step with
      | .error e => .error e
      | .ok none => partsOf base_dir fs mdFit vars an rest
      | .ok (some t) => (partsOf base_dir fs mdFit vars an rest).map (fun ps => t :: ps)

theorem assemblyLoop_parts (base_dir : String) (fs : String → FileResult)
    (mdFit : String → Int → String) (vars : VarMap) (an : String) :
    ∀ (steps : List Value) (deps : DepMap),
      (assemblyLoop base_dir fs mdFit vars an steps deps).map (fun r => r.1) =
        partsOf base_dir fs mdFit vars an steps := by
  intro steps
  induction steps with
  | nil => intro deps; rfl
  | cons step rest ih =>
      intro deps
      have hst := stepRun_text base_dir fs mdFit vars an step deps
      simp only [assemblyLoop, partsOf]
      cases hsr : stepRun base_dir fs mdFit vars an step deps with
      | error e =>
          rw [hsr] at hst
          simp [Except.map] at hst
          simp [← hst, Except.map]
      | ok r =>
          obtain ⟨part, deps', ws⟩ := r
          rw [hsr] at hst
          simp [Except.map] at hst
          rw [← hst]
          cases hal : assemblyLoop base_dir fs mdFit vars an rest deps' with
          | error e =>
              have := ih deps'
              rw [hal] at this
              simp [Except.map] at this
              cases part <;> simp [hal, ← this, Except.map]
          | ok r' =>
              obtain ⟨parts, deps'', ws'⟩ := r'
              have := ih deps'
              rw [hal] at this
              simp [Except.map] at this
              cases part <;> simp [hal, ← this, Except.map]

/-- C4 counterexample: the three fragments `a`, `"  "` (whitespace
only) and `b` assemble to `a\n\n\n\nb` — the whitespace-only fragment
is not dropped (truthiness is tested before stripping) and contributes
an empty join entry — whereas the claimed trim-then-drop join yields
`a\n\nb`. -/
theorem C4_counterexample :
    _run_simple_assembly "/cfg" (fun _ => FileResult.notFound) (fun s _ => s)
        [("assembly", Value.list
          [.dict [("content", .str "a")], .dict [("content", .str "  ")],
           .dict [("content", .str "b")]])]
        [] "main" [] = .ok ("a\n\n\n\nb", [], []) ∧
      specJoinFragments ["a", "  ", "b"] = "a\n\nb" ∧
      ("a\n\n\n\nb" : String) ≠ "a\n\nb" :=
  ⟨rfl, rfl, by decide⟩

/-- C4 (amended): the assembler joins the step fragments with blank
lines, dropping fragments that are empty BEFORE trimming and trimming
the surviving fragments (`"\n\n".join(p.strip() for p in parts if p)`);
a dropped fragment contributes no separator, but a whitespace-only
(nonempty) fragment survives the drop, trims to the empty string and
contributes an empty join entry.  When no fragment is whitespace-only,
this coincides with the claimed trim-then-drop join. -/
theorem C4_assembly_join_amended (base_dir : String) (fs : String → FileResult)
    (mdFit : String → Int → String) (ac : VarMap) (vars : VarMap)
    (an : String) (deps : DepMap) :
    (∀ text deps' ws,
      _run_simple_assembly base_dir fs mdFit ac vars an deps = .ok (text, deps', ws) →
        (partsOf base_dir fs mdFit vars an
            (asList (dictGetD ac "assembly" (.list [])))).map joinParts = .ok text) ∧
    (∀ parts : List String, (∀ p ∈ parts, pyStrip p = "" → p = "") →
      joinParts parts = specJoinFragments parts) := by
  constructor
  · intro text deps' ws hrun
    unfold _run_simple_assembly at hrun
    simp only [] at hrun
    cases hal : assemblyLoop base_dir fs mdFit vars an
        (asList (dictGetD ac "assembly" (.list []))) deps with
    | error e => rw [hal] at hrun; simp at hrun
    | ok r =>
        obtain ⟨parts, d2, w2⟩ := r
        rw [hal] at hrun
        simp at hrun
        have hp := assemblyLoop_parts base_dir fs mdFit vars an
          (asList (dictGetD ac "assembly" (.list []))) deps
        rw [hal] at hp
        simp [Except.map] at hp
        rw [← hp]
        simp [Except.map, hrun.1]
  · intro parts hws
    unfold joinParts specJoinFragments
    congr 1
    induction parts with
    | nil => rfl
    | cons p rest ih =>
        have ihr := ih (fun q hq => hws q (by simp [hq]))
        rw [List.filter_cons, List.map_cons, List.filter_cons]
        by_cases hp : p = ""
        · subst hp
          have h1 : (!("" : String).isEmpty) = false := rfl
          have h2 : (!(pyStrip "").isEmpty) = false := rfl
          rw [h1, h2]
          simp [ihr]
        · have hps : pyStrip p ≠ "" := fun hc => hp (hws p (by simp) hc)
          have h1 : (!p.isEmpty) = true := by
            cases hpe : p.isEmpty
            · rfl
            · exact absurd ((String.isEmpty_iff p).mp hpe) hp
          have h2 : (!(pyStrip p).isEmpty) = true := by
            cases hpe : (pyStrip p).isEmpty
            · rfl
            · exact absurd ((String.isEmpty_iff (pyStrip p)).mp hpe) hps
          rw [h1, h2]
          simp [ihr]

theorem C4_assembly_join_amended_witness :
    (partsOf "/c" (fun _ => FileResult.notFound) (fun s _ => s) [] "x"
        (asList (dictGetD
          [("assembly", Value.list
            [Value.dict [("content", Value.str "a")], Value.dict [("content", Value.str "b")]])]
          "assembly" (Value.list [])))).map joinParts = Except.ok "a\n\nb" ∧
      joinParts ["a", "", "b"] = specJoinFragments ["a", "", "b"] :=
  ⟨(C4_assembly_join_amended "/c" (fun _ => FileResult.notFound) (fun s _ => s)
      [("assembly", Value.list
        [Value.dict [("content", Value.str "a")], Value.dict [("content", Value.str "b")]])]
      [] "x" []).1 "a\n\nb" [] [] rfl,
   (C4_assembly_join_amended "/c" (fun _ => FileResult.notFound) (fun s _ => s)
      [] [] "x" []).2 ["a", "", "b"] (by decide)⟩

/-! ## Claim C5: step-key dispatch -/

/-- C5 counterexample: the step `\x7bh7: x\x7d` — whose key is outside
`h1`..`h6` and outside the recognized key list — is NOT ignored: it
contributes the fragment `####### x` (seven hash marks). -/
theorem C5_counterexample :
    _run_simple_assembly "/c" (fun _ => FileResult.notFound) (fun s _ => s)
        [("assembly", Value.list [Value.dict [("h7", Value.str "x")]])] [] "a" [] =
      .ok ("####### x", [], []) ∧ ("####### x" : String) ≠ "" :=
  ⟨rfl, by decide⟩

/-- C5 (amended): a step whose single key is `h` followed by any
nonempty digit string contributes a pseudo-heading of exactly that many
`#` characters, a space, then the substituted value — `h1`..`h6` give
Markdown headings, but `h0`, `h7`, `h10`, ... are accepted too, with no
clamping to 1..6; a step whose key is not `include`, `include_raw`,
`content`, `separator` and not of that `h`-digits shape contributes no
fragment (the substituted value and its warnings are still computed). -/
theorem C5_step_key_dispatch_amended (base_dir : String) (fs : String → FileResult)
    (mdFit : String → Int → String) (vars : VarMap) (an key : String)
    (value : Value) (deps : DepMap) (n : Nat) :
    (headingLevel? key = some n → key ≠ "include" → key ≠ "include_raw" →
      key ≠ "content" → key ≠ "separator" →
      stepRun base_dir fs mdFit vars an (.dict [(key, value)]) deps =
        .ok (some (String.mk (List.replicate n '#') ++ " " ++
              (_substitute_variables (pyStr value) vars).1),
             deps, (_substitute_variables (pyStr value) vars).2)) ∧
    (headingLevel? key = none → key ≠ "include" → key ≠ "include_raw" →
      key ≠ "content" → key ≠ "separator" →
      stepRun base_dir fs mdFit vars an (.dict [(key, value)]) deps =
        .ok (none, deps, (_substitute_variables (pyStr value) vars).2)) := by
  constructor
  · intro hl h1 h2 h3 h4
    have hk : ¬(key = "include" ∨ key = "include_raw") := by
      rintro (rfl | rfl) <;> simp_all
    have hck : ¬(key = "content" ∨ key = "separator") := by
      rintro (rfl | rfl) <;> simp_all
    simp [stepRun, hk, hck, hl]
  · intro hl h1 h2 h3 h4
    have hk : ¬(key = "include" ∨ key = "include_raw") := by
      rintro (rfl | rfl) <;> simp_all
    have hck : ¬(key = "content" ∨ key = "separator") := by
      rintro (rfl | rfl) <;> simp_all
    simp [stepRun, hk, hck, hl]

theorem C5_step_key_dispatch_amended_witness :
    stepRun "/c" (fun _ => FileResult.notFound) (fun s _ => s) [] "a"
        (Value.dict [("h10", Value.str "t")]) [] =
      .ok (some "########## t", [], []) ∧
    stepRun "/c" (fun _ => FileResult.notFound) (fun s _ => s) [] "a"
        (Value.dict [("banner", Value.str "t")]) [] =
      .ok (none, [], []) :=
  ⟨(C5_step_key_dispatch_amended "/c" (fun _ => FileResult.notFound) (fun s _ => s)
      [] "a" "h10" (Value.str "t") [] 10).1
      (by decide) (by decide) (by decide) (by decide) (by decide),
   (C5_step_key_dispatch_amended "/c" (fun _ => FileResult.notFound) (fun s _ => s)
      [] "a" "banner" (Value.str "t") [] 0).2
      (by decide) (by decide) (by decide) (by decide) (by decide)⟩

/-! ## Claim C6: missing include files vs other I/O failures -/

theorem depsLookup_reset (deps : DepMap) (a c : String) :
    depsLookup (depsReset deps a c) a = some [c] := by
  induction deps with
  | nil => simp [depsReset, depsLookup]
  | cons e rest ih =>
      obtain ⟨a', ps⟩ := e
      by_cases h : a' = a
      · subst h; simp [depsReset, depsLookup]
      · simp [depsReset, depsLookup, h, ih]

/-- The single-include configuration used by composition-level parts
of claim C6. -/
def includeEnv (fs : String → FileResult) (p : String) : ComposeEnv where
  config_path := "/cfg/prompts.yml"
  base_dir := "/cfg"
  config :=
    [("agents", .dict
      [("agent", .dict [("assembly", .list [.dict [("include", .str p)]])])])]
  fs := fs
  mdFit := fun s _ => s
  tmplRender := fun _ _ _ => .error "unused"

/-- The result of a single `include` step on a plain reference-free
path, by filesystem outcome. -/
theorem stepRun_plain_include (base_dir : String) (fs : String → FileResult)
    (mdFit : String → Int → String) (vars : VarMap) (an p : String) (deps : DepMap)
    (hp : noRefSyntax p = true) (hcr : noCR p.data = true)
    (hnl : p.data.getLast? ≠ some '\n') (hps : pyStrip p ≠ "") :
    stepRun base_dir fs mdFit vars an (.dict [("include", .str p)]) deps =
      (let deps' := if an ≠ "" ∧ (depsLookup deps an).isSome then
          depsAdd deps an (_resolve_path base_dir p) else deps
       match fs (_resolve_path base_dir p) with
       | .found content =>
           if substituteInIncludesFlag vars then
             .ok (some (_substitute_variables content vars (some p)).1, deps',
                  (_substitute_variables content vars (some p)).2)
           else .ok (some content, deps', [])
       | .notFound =>
           if substituteInIncludesFlag vars then
             .ok (some (_substitute_variables "" vars (some p)).1, deps',
                  [Warning.fileNotFound p] ++ (_substitute_variables "" vars (some p)).2)
           else .ok (some "", deps', [Warning.fileNotFound p])
       | .ioError msg =>
           .error (.promptScribeError ("Failed to read file: " ++ p ++ ": " ++ msg))) := by
  have hpne : p ≠ "" := fun hc => hps (by rw [hc]; rfl)
  have hpf : pathAndFit ("include" = "include_raw") (.str p) = some (p, none) := by
    simp [pathAndFit]
  simp only [stepRun, if_pos (Or.inl rfl), hpf]
  rw [subst_noRef p vars none hp hcr hnl]
  simp only [hpne, if_neg hpne, hps, if_neg hps]
  unfold _get_and_process_file_content _read_file_content
  cases hfs : fs (_resolve_path base_dir p) <;>
    cases hflag : substituteInIncludesFlag vars <;>
      simp [hfs, hflag, Except.map]

/-- The resolved variable mapping of the single-include configuration. -/
def includeVarsC : VarMap :=
  [("_agent_name", .str "agent"),
   ("_settings", .dict
     [("warn_on_missing", .bool true), ("substitute_in_includes", .bool true)])]

theorem includeEnv_compose (fs : String → FileResult) (p : String) (deps : DepMap) :
    compose_agent (includeEnv fs p) deps "agent" =
      (match _run_simple_assembly "/cfg" fs (fun s _ => s)
          [("assembly", .list [.dict [("include", .str p)]])] includeVarsC "agent"
          (depsReset deps "agent" "/cfg/prompts.yml") with
       | .error e => .error e
       | .ok (text, deps', ws) => .ok (text, deps', ws)) := by
  rfl

/-- C6: a missing include file reads as the empty string with a
non-fatal warning, while any other I/O failure raises
`PromptScribeError`; at composition level, an agent whose assembly is
`[\x7binclude: p\x7d]` composes to the empty string plus the
file-not-found warning when `p` is missing, and composition fails with
the error when reading `p` hits any other I/O failure. -/
theorem C6_missing_file_empty_and_io_error_fatal (base_dir : String)
    (fs : String → FileResult) (deps : DepMap) (p an : String)
    (hp : noRefSyntax p = true) (hcr : noCR p.data = true)
    (hnl : p.data.getLast? ≠ some '\n') (hps : pyStrip p ≠ "") :
    (fs (_resolve_path base_dir p) = .notFound →
      (_read_file_content base_dir fs deps p an).toOption.map (fun r => (r.1, r.2.2)) =
        some ("", [Warning.fileNotFound p])) ∧
    (∀ msg, fs (_resolve_path base_dir p) = .ioError msg →
      _read_file_content base_dir fs deps p an =
        .error (.promptScribeError ("Failed to read file: " ++ p ++ ": " ++ msg))) ∧
    (fs (_resolve_path "/cfg" p) = .notFound →
      compose_agent (includeEnv fs p) deps "agent" =
        .ok ("",
          depsAdd (depsReset deps "agent" "/cfg/prompts.yml") "agent" (_resolve_path "/cfg" p),
          [Warning.fileNotFound p])) ∧
    (∀ msg, fs (_resolve_path "/cfg" p) = .ioError msg →
      compose_agent (includeEnv fs p) deps "agent" =
        .error (.promptScribeError ("Failed to read file: " ++ p ++ ": " ++ msg))) := by
  refine ⟨?_, ?_, ?_, ?_⟩
  · intro hfs
    unfold _read_file_content
    simp only [hfs]
    rfl
  · intro msg hfs
    unfold _read_file_content
    simp only [hfs]
  · intro hfs
    rw [includeEnv_compose]
    unfold _run_simple_assembly
    simp only [assemblyLoop]
    rw [stepRun_plain_include "/cfg" fs _ includeVarsC "agent" p _ hp hcr hnl hps]
    have hsub0 : _substitute_variables "" includeVarsC (some p) = ("", []) :=
      subst_noRef "" _ _ rfl rfl (by simp)
    simp [hsub0, depsLookup_reset, joinParts, hfs]
    rfl
  · intro msg hfs
    rw [includeEnv_compose]
    unfold _run_simple_assembly
    simp only [assemblyLoop]
    rw [stepRun_plain_include "/cfg" fs _ includeVarsC "agent" p _ hp hcr hnl hps]
    simp [depsLookup_reset, hfs]

theorem C6_missing_file_empty_and_io_error_fatal_witness :
    compose_agent (includeEnv (fun _ => FileResult.notFound) "missing.md") [] "agent" =
      .ok ("",
        depsAdd (depsReset [] "agent" "/cfg/prompts.yml") "agent"
          (_resolve_path "/cfg" "missing.md"),
        [Warning.fileNotFound "missing.md"]) ∧
    compose_agent (includeEnv (fun _ => FileResult.ioError "disk") "missing.md") [] "agent" =
      .error (.promptScribeError ("Failed to read file: " ++ "missing.md" ++ ": " ++ "disk")) :=
  ⟨(C6_missing_file_empty_and_io_error_fatal "/cfg" (fun _ => FileResult.notFound) []
      "missing.md" "agent" (by decide) (by decide) (by decide) (by decide)).2.2.1 rfl,
   (C6_missing_file_empty_and_io_error_fatal "/cfg" (fun _ => FileResult.ioError "disk") []
      "missing.md" "agent" (by decide) (by decide) (by decide) (by decide)).2.2.2 "disk" rfl⟩

/-! ## Claim C7: variable resolution -/

theorem dictLookup_dictSet_self (m : VarMap) (k : String) (v : Value) :
    dictLookup (dictSet m k v) k = some v := by
  induction m with
  | nil => simp [dictSet, dictLookup]
  | cons e rest ih =>
      obtain ⟨k', v'⟩ := e
      by_cases h : k' = k
      · subst h; simp [dictSet, dictLookup]
      · simp [dictSet, dictLookup, h, ih]

theorem dictLookup_dictSet_other (m : VarMap) {k' k : String} (v : Value)
    (h : k' ≠ k) : dictLookup (dictSet m k' v) k = dictLookup m k := by
  induction m with
  | nil => simp [dictSet, dictLookup, h]
  | cons e rest ih =>
      obtain ⟨k0, v0⟩ := e
      by_cases h0 : k0 = k'
      · subst h0; simp [dictSet, dictLookup, h]
      · simp [dictSet, dictLookup, h0, ih]

theorem dictLookup_dictUpdate_not_mem (m : VarMap) {adds : VarMap} {k : String}
    (h : k ∉ adds.map Prod.fst) :
    dictLookup (dictUpdate m adds) k = dictLookup m k := by
  induction adds generalizing m with
  | nil => rfl
  | cons e rest ih =>
      obtain ⟨k0, v0⟩ := e
      simp only [List.map_cons, List.mem_cons] at h
      push_neg at h
      simp only [dictUpdate]
      rw [ih (dictSet m k0 v0) h.2, dictLookup_dictSet_other m v0 (Ne.symm h.1)]

theorem dictLookup_dictUpdate_mem (m : VarMap) {adds : VarMap} {k : String}
    (hnd : (adds.map Prod.fst).Nodup) (h : k ∈ adds.map Prod.fst) :
    dictLookup (dictUpdate m adds) k = dictLookup adds k := by
  induction adds generalizing m with
  | nil => simp at h
  | cons e rest ih =>
      obtain ⟨k0, v0⟩ := e
      simp only [List.map_cons, List.nodup_cons] at hnd
      simp only [List.map_cons, List.mem_cons] at h
      simp only [dictUpdate]
      by_cases hk : k = k0
      · subst hk
        rw [dictLookup_dictUpdate_not_mem _ hnd.1, dictLookup_dictSet_self]
        simp [dictLookup]
      · have hmem : k ∈ rest.map Prod.fst := by
          rcases h with h | h
          · exact absurd h hk
          · exact h
        rw [ih (dictSet m k0 v0) hnd.2 hmem]
        simp [dictLookup, Ne.symm hk]

theorem resolveLoop_lookup (merged : VarMap) :
    ∀ (m : VarMap) (k : String),
      dictLookup (resolveLoop merged m).1 k =
        (dictLookup m k).map (fun v =>
          match v with
          | .str s => .str (_substitute_variables s merged).1
          | v => v) := by
  intro m
  induction m with
  | nil => intro k; rfl
  | cons e rest ih =>
      intro k
      obtain ⟨k0, v0⟩ := e
      by_cases hk : k0 = k
      · subst hk
        cases v0 <;> (simp [resolveLoop, dictLookup]; try rfl)
      · cases v0 <;> (simp [resolveLoop, dictLookup, hk, ih k]; try rfl)

/-- C7: variable resolution merges global and agent variables with
agent precedence, injects `_agent_name`, overlays the extra context
(which wins over everything, `_agent_name` included), and then expands
every string value against the merged PRE-expansion mapping — one
key's expansion never sees another key's expanded result — while every
non-string value passes through unchanged. -/
theorem C7_variable_resolution (config : VarMap) (name k : String)
    (extra g a : VarMap)
    (hg : configGlobalVars config = g) (ha : configAgentVars config name = a)
    (hnda : (a.map Prod.fst).Nodup) (hnde : (extra.map Prod.fst).Nodup) :
    (dictLookup (_resolve_variables config name extra).1 k =
      (dictLookup (mergedVars g a name extra) k).map (fun v =>
        match v with
        | .str s => .str (_substitute_variables s (mergedVars g a name extra)).1
        | v => v)) ∧
    (k ∈ extra.map Prod.fst →
      dictLookup (mergedVars g a name extra) k = dictLookup extra k) ∧
    (k ∉ extra.map Prod.fst → k = "_agent_name" →
      dictLookup (mergedVars g a name extra) k = some (.str name)) ∧
    (k ∉ extra.map Prod.fst → k ≠ "_agent_name" → k ∈ a.map Prod.fst →
      dictLookup (mergedVars g a name extra) k = dictLookup a k) ∧
    (k ∉ extra.map Prod.fst → k ≠ "_agent_name" → k ∉ a.map Prod.fst →
      dictLookup (mergedVars g a name extra) k = dictLookup g k) := by
  refine ⟨?_, ?_, ?_, ?_, ?_⟩
  · unfold _resolve_variables
    rw [hg, ha]
    exact resolveLoop_lookup (mergedVars g a name extra) (mergedVars g a name extra) k
  · intro hmem
    exact dictLookup_dictUpdate_mem _ hnde hmem
  · intro hnm hk
    subst hk
    unfold mergedVars
    rw [dictLookup_dictUpdate_not_mem _ hnm, dictLookup_dictSet_self]
  · intro hnm hk hmem
    unfold mergedVars
    rw [dictLookup_dictUpdate_not_mem _ hnm,
        dictLookup_dictSet_other _ _ (Ne.symm hk),
        dictLookup_dictUpdate_mem _ hnda hmem]
  · intro hnm hk hmem
    unfold mergedVars
    rw [dictLookup_dictUpdate_not_mem _ hnm,
        dictLookup_dictSet_other _ _ (Ne.symm hk),
        dictLookup_dictUpdate_not_mem _ hmem]

theorem C7_variable_resolution_witness :
    (dictLookup
        (_resolve_variables
          [("variables", Value.dict [("x", Value.str "g"), ("shared", Value.str "glob")]),
           ("agents", Value.dict
             [("bot", Value.dict [("variables", Value.dict [("shared", Value.str "loc")])])])]
          "bot" [("_settings", Value.dict [])]).1 "shared" =
      (dictLookup
          (mergedVars [("x", Value.str "g"), ("shared", Value.str "glob")]
            [("shared", Value.str "loc")] "bot" [("_settings", Value.dict [])]) "shared").map
        (fun v =>
          match v with
          | .str s =>
              .str (_substitute_variables s
                (mergedVars [("x", Value.str "g"), ("shared", Value.str "glob")]
                  [("shared", Value.str "loc")] "bot" [("_settings", Value.dict [])])).1
          | v => v)) ∧
    ("shared" ∈ ([("_settings", Value.dict [])] : VarMap).map Prod.fst →
      dictLookup
          (mergedVars [("x", Value.str "g"), ("shared", Value.str "glob")]
            [("shared", Value.str "loc")] "bot" [("_settings", Value.dict [])]) "shared" =
        dictLookup [("_settings", Value.dict [])] "shared") ∧
    ("shared" ∉ ([("_settings", Value.dict [])] : VarMap).map Prod.fst →
      "shared" = "_agent_name" →
      dictLookup
          (mergedVars [("x", Value.str "g"), ("shared", Value.str "glob")]
            [("shared", Value.str "loc")] "bot" [("_settings", Value.dict [])]) "shared" =
        some (.str "bot")) ∧
    ("shared" ∉ ([("_settings", Value.dict [])] : VarMap).map Prod.fst →
      "shared" ≠ "_agent_name" →
      "shared" ∈ ([("shared", Value.str "loc")] : VarMap).map Prod.fst →
      dictLookup
          (mergedVars [("x", Value.str "g"), ("shared", Value.str "glob")]
            [("shared", Value.str "loc")] "bot" [("_settings", Value.dict [])]) "shared" =
        dictLookup [("shared", Value.str "loc")] "shared") ∧
    ("shared" ∉ ([("_settings", Value.dict [])] : VarMap).map Prod.fst →
      "shared" ≠ "_agent_name" →
      "shared" ∉ ([("shared", Value.str "loc")] : VarMap).map Prod.fst →
      dictLookup
          (mergedVars [("x", Value.str "g"), ("shared", Value.str "glob")]
            [("shared", Value.str "loc")] "bot" [("_settings", Value.dict [])]) "shared" =
        dictLookup [("x", Value.str "g"), ("shared", Value.str "glob")] "shared") :=
  C7_variable_resolution
    [("variables", Value.dict [("x", Value.str "g"), ("shared", Value.str "glob")]),
     ("agents", Value.dict
       [("bot", Value.dict [("variables", Value.dict [("shared", Value.str "loc")])])])]
    "bot" "shared" [("_settings", Value.dict [])]
    [("x", Value.str "g"), ("shared", Value.str "glob")] [("shared", Value.str "loc")]
    rfl rfl (by decide) (by decide)

/-! ## Claim C8: heading-level fitting -/

theorem hlFold_le_init (tokens : List MdTok) :
    ∀ init : Int,
      tokens.foldl (fun m t => match t with | .heading l => min m l | _ => m) init ≤ init := by
  induction tokens with
  | nil => intro init; simp
  | cons t rest ih =>
      intro init
      cases t with
      | heading l =>
          simp only [List.foldl_cons]
          exact le_trans (ih (min init l)) (min_le_left _ _)
      | other c => simpa using ih init

theorem hlFold_le {tokens : List MdTok} {l : Int} (h : MdTok.heading l ∈ tokens) :
    ∀ init : Int,
      tokens.foldl (fun m t => match t with | .heading l => min m l | _ => m) init ≤ l := by
  induction tokens with
  | nil => simp at h
  | cons t rest ih =>
      intro init
      rcases List.mem_cons.mp h with heq | hmem
      · subst heq
        simp only [List.foldl_cons]
        exact le_trans (hlFold_le_init rest _) (min_le_right _ _)
      · cases t with
        | heading l' => simpa using ih hmem (min init l')
        | other c => simpa using ih hmem init

theorem hlFold_ge {tokens : List MdTok} {b : Int}
    (hb : ∀ l, MdTok.heading l ∈ tokens → b ≤ l) :
    ∀ init : Int, b ≤ init →
      b ≤ tokens.foldl (fun m t => match t with | .heading l => min m l | _ => m) init := by
  induction tokens with
  | nil => intro init h; simpa using h
  | cons t rest ih =>
      intro init hinit
      cases t with
      | heading l =>
          simp only [List.foldl_cons]
          exact ih (fun l' hl' => hb l' (by simp [hl'])) (min init l)
            (le_min hinit (hb l (by simp)))
      | other c =>
          simpa using ih (fun l' hl' => hb l' (by simp [hl'])) init hinit

theorem highestLevel_no_heading {tokens : List MdTok}
    (h : ∀ l, MdTok.heading l ∉ tokens) : highestLevel tokens = 7 := by
  unfold highestLevel
  induction tokens with
  | nil => rfl
  | cons t rest ih =>
      cases t with
      | heading l => exact absurd (by simp) (h l)
      | other c =>
          simpa using ih (fun l hl => h l (by simp [hl]))

theorem mem_map_clampShift {tokens : List MdTok} {d l' : Int} :
    MdTok.heading l' ∈ tokens.map (clampShift d) ↔
      ∃ l, MdTok.heading l ∈ tokens ∧ l' = min (max 1 (l + d)) 6 := by
  induction tokens with
  | nil => simp
  | cons t rest ih =>
      cases t with
      | heading l =>
          simp only [List.map_cons, clampShift, List.mem_cons, ih]
          constructor
          · rintro (heq | ⟨l0, hl0, rfl⟩)
            · exact ⟨l, Or.inl rfl, by injection heq⟩
            · exact ⟨l0, Or.inr hl0, rfl⟩
          · rintro ⟨l0, hl0 | hl0, rfl⟩
            · injection hl0 with hl0
              subst hl0
              exact Or.inl rfl
            · exact Or.inr ⟨l0, hl0, rfl⟩
      | other c =>
          simp only [List.map_cons, clampShift, List.mem_cons, ih]
          constructor
          · rintro (heq | ⟨l0, hl0, rfl⟩)
            · exact absurd heq (by simp)
            · exact ⟨l0, Or.inr hl0, rfl⟩
          · rintro ⟨l0, hl0 | hl0, rfl⟩
            · exact absurd hl0 (by simp)
            · exact Or.inr ⟨l0, hl0, rfl⟩

theorem hlFold_mem (tokens : List MdTok) :
    ∀ init : Int,
      tokens.foldl (fun m t => match t with | .heading l => min m l | _ => m) init = init ∨
        ∃ l, MdTok.heading l ∈ tokens ∧
          tokens.foldl (fun m t => match t with | .heading l => min m l | _ => m) init = l := by
  induction tokens with
  | nil => intro init; exact Or.inl rfl
  | cons t rest ih =>
      intro init
      cases t with
      | heading l =>
          simp only [List.foldl_cons]
          rcases ih (min init l) with h | ⟨l0, hl0, h⟩
          · rcases le_or_lt init l with hle | hlt
            · exact Or.inl (by rw [h, min_eq_left hle])
            · exact Or.inr ⟨l, by simp, by rw [h, min_eq_right (le_of_lt hlt)]⟩
          · exact Or.inr ⟨l0, by simp [hl0], h⟩
      | other c =>
          simp only [List.foldl_cons]
          rcases ih init with h | ⟨l0, hl0, h⟩
          · exact Or.inl h
          · exact Or.inr ⟨l0, by simp [hl0], h⟩

/-- C8 counterexample: content consisting of a single `h1` heading,
fitted to the (out-of-range) requested level 7, ends with its
shallowest heading at level 6 — not at the requested level. -/
theorem C8_counterexample :
    highestLevel (_process_markdown_content [MdTok.heading 1] 7) = 6 ∧ (6 : Int) ≠ 7 ∧
      _process_markdown_content [MdTok.heading 1] 7 = [MdTok.heading 6] := by
  refine ⟨by decide, by decide, by decide⟩

/-- C8 (amended): heading fitting shifts every heading by the uniform
delta `fit - shallowest` and clamps the results into 1..6; content
with no headings is returned unchanged; and whenever the REQUESTED
level itself lies within 1..6 (the only levels a Markdown heading can
have), the shallowest heading of the result lands exactly on the
requested level.  For a requested level outside 1..6 the shallowest
lands on the clamp of the requested level instead. -/
theorem C8_heading_fit_amended (tokens : List MdTok) (fit : Int)
    (hwf : ∀ l, MdTok.heading l ∈ tokens → 1 ≤ l ∧ l ≤ 6) :
    ((∀ l, MdTok.heading l ∉ tokens) → _process_markdown_content tokens fit = tokens) ∧
    ((∃ l, MdTok.heading l ∈ tokens) → 1 ≤ fit → fit ≤ 6 →
      _process_markdown_content tokens fit =
          tokens.map (clampShift (fit - highestLevel tokens)) ∧
        highestLevel (_process_markdown_content tokens fit) = fit ∧
        (∀ l', MdTok.heading l' ∈ _process_markdown_content tokens fit →
          1 ≤ l' ∧ l' ≤ 6)) := by
  constructor
  · intro hno
    unfold _process_markdown_content
    rw [highestLevel_no_heading hno]
    simp
  · rintro ⟨l0, hl0⟩ hf1 hf6
    have hh_le : highestLevel tokens ≤ l0 := hlFold_le hl0 7
    have hh_ge : (1 : Int) ≤ highestLevel tokens :=
      hlFold_ge (fun l hl => (hwf l hl).1) 7 (by norm_num)
    have hh6 : highestLevel tokens ≤ 6 := le_trans hh_le (hwf l0 hl0).2
    have hne7 : highestLevel tokens ≠ 7 := by omega
    obtain ⟨lh, hlh, hlh_eq⟩ :
        ∃ l, MdTok.heading l ∈ tokens ∧ highestLevel tokens = l := by
      rcases hlFold_mem tokens 7 with h | h
      · exact absurd h hne7
      · exact h
    set h := highestLevel tokens with hh_def
    by_cases hdelta : fit - h = 0
    · have hfith : fit = h := by omega
      have hproc : _process_markdown_content tokens fit = tokens := by
        unfold _process_markdown_content
        rw [← hh_def]
        simp [hne7, hdelta]
      have hmapid : tokens.map (clampShift (fit - h)) = tokens := by
        rw [hdelta]
        have : ∀ t ∈ tokens, clampShift 0 t = t := by
          intro t ht
          cases t with
          | heading l =>
              have := hwf l ht
              simp only [clampShift]
              congr 1
              omega
          | other c => rfl
        calc tokens.map (clampShift 0) = tokens.map id := List.map_congr_left this
          _ = tokens := List.map_id tokens
      refine ⟨by rw [hproc, hmapid], by rw [hproc, ← hh_def, ← hfith], ?_⟩
      intro l' hl'
      rw [hproc] at hl'
      exact hwf l' hl'
    · have hproc : _process_markdown_content tokens fit =
          tokens.map (clampShift (fit - h)) := by
        unfold _process_markdown_content
        rw [← hh_def]
        simp [hne7, hdelta]
      have hbounds : ∀ l', MdTok.heading l' ∈ tokens.map (clampShift (fit - h)) →
          1 ≤ l' ∧ l' ≤ 6 := by
        intro l' hl'
        obtain ⟨l, _, rfl⟩ := mem_map_clampShift.mp hl'
        omega
      have hge : ∀ l', MdTok.heading l' ∈ tokens.map (clampShift (fit - h)) →
          fit ≤ l' := by
        intro l' hl'
        obtain ⟨l, hlmem, rfl⟩ := mem_map_clampShift.mp hl'
        have : h ≤ l := hlFold_le hlmem 7
        omega
      have hwit : MdTok.heading fit ∈ tokens.map (clampShift (fit - h)) := by
        apply mem_map_clampShift.mpr
        exact ⟨lh, hlh, by omega⟩
      have hhl_out : highestLevel (tokens.map (clampShift (fit - h))) = fit := by
        have hub : highestLevel (tokens.map (clampShift (fit - h))) ≤ fit :=
          hlFold_le hwit 7
        have hlb : fit ≤ highestLevel (tokens.map (clampShift (fit - h))) :=
          hlFold_ge hge 7 (by omega)
        omega
      refine ⟨hproc, by rw [hproc, hhl_out], ?_⟩
      intro l' hl'
      rw [hproc] at hl'
      exact hbounds l' hl'

theorem C8_heading_fit_amended_witness :
    _process_markdown_content [MdTok.heading 2, MdTok.heading 3] 1 =
        [MdTok.heading 1, MdTok.heading 2] ∧
      highestLevel (_process_markdown_content [MdTok.heading 2, MdTok.heading 3] 1) = 1 :=
  ⟨((C8_heading_fit_amended [MdTok.heading 2, MdTok.heading 3] 1
      (by intro l hl; simp at hl; rcases hl with rfl | rfl <;> decide)).2
      ⟨2, by decide⟩ (by decide) (by decide)).1,
   ((C8_heading_fit_amended [MdTok.heading 2, MdTok.heading 3] 1
      (by intro l hl; simp at hl; rcases hl with rfl | rfl <;> decide)).2
      ⟨2, by decide⟩ (by decide) (by decide)).2.1⟩

/-! ## Claim C9: dependency views -/

theorem mem_revAdd (acc : List (String × List String)) (p agent q a : String) :
    a ∈ (depsLookup (revAdd acc p agent) q).getD [] ↔
      (a ∈ (depsLookup acc q).getD [] ∨ (q = p ∧ a = agent)) := by
  induction acc with
  | nil =>
      by_cases hq : p = q
      · subst hq
        simp [revAdd, depsLookup]
      · simp [revAdd, depsLookup, hq, Ne.symm hq]
  | cons e rest ih =>
      obtain ⟨p', ags⟩ := e
      by_cases hp : p' = p
      · subst hp
        by_cases hq : p' = q
        · subst hq
          simp [revAdd, depsLookup]
        · simp [revAdd, depsLookup, hq, Ne.symm hq]
      · by_cases hq : p' = q
        · subst hq
          simp [revAdd, depsLookup, hp]
        · simp [revAdd, depsLookup, hp, hq, ih]

theorem mem_revAddAll (paths : List String) (agent q a : String) :
    ∀ acc, a ∈ (depsLookup (revAddAll acc paths agent) q).getD [] ↔
      (a ∈ (depsLookup acc q).getD [] ∨ (q ∈ paths ∧ a = agent)) := by
  induction paths with
  | nil => intro acc; simp [revAddAll]
  | cons p rest ih =>
      intro acc
      simp only [revAddAll]
      rw [ih (revAdd acc p agent), mem_revAdd]
      constructor
      · rintro ((h | ⟨rfl, rfl⟩) | ⟨hm, rfl⟩)
        · exact Or.inl h
        · exact Or.inr ⟨by simp, rfl⟩
        · exact Or.inr ⟨by simp [hm], rfl⟩
      · rintro (h | ⟨hm, rfl⟩)
        · exact Or.inl (Or.inl h)
        · rcases List.mem_cons.mp hm with rfl | hm
          · exact Or.inl (Or.inr ⟨rfl, rfl⟩)
          · exact Or.inr ⟨hm, rfl⟩

theorem mem_revLoop (deps : DepMap) (q a : String) :
    ∀ acc, a ∈ (depsLookup (revLoop acc deps) q).getD [] ↔
      (a ∈ (depsLookup acc q).getD [] ∨ ∃ ps, (a, ps) ∈ deps ∧ q ∈ ps) := by
  induction deps with
  | nil => intro acc; simp [revLoop]
  | cons e rest ih =>
      intro acc
      obtain ⟨agent, paths⟩ := e
      simp only [revLoop]
      rw [ih (revAddAll acc paths agent), mem_revAddAll]
      constructor
      · rintro ((h | ⟨hq, rfl⟩) | ⟨ps, hps, hq⟩)
        · exact Or.inl h
        · exact Or.inr ⟨paths, by simp, hq⟩
        · exact Or.inr ⟨ps, by simp [hps], hq⟩
      · rintro (h | ⟨ps, hps, hq⟩)
        · exact Or.inl (Or.inl h)
        · rcases List.mem_cons.mp hps with heq | hm
          · injection heq with h1 h2
            subst h1 h2
            exact Or.inl (Or.inr ⟨hq, rfl⟩)
          · exact Or.inr ⟨ps, hm, hq⟩

theorem depsLookup_eq_of_nodup {deps : DepMap} (hnd : (deps.map Prod.fst).Nodup)
    (a : String) (ps : List String) :
    (a, ps) ∈ deps ↔ depsLookup deps a = some ps := by
  induction deps with
  | nil => simp [depsLookup]
  | cons e rest ih =>
      obtain ⟨a', ps'⟩ := e
      simp only [List.map_cons, List.nodup_cons] at hnd
      by_cases ha : a' = a
      · subst ha
        simp only [depsLookup, if_pos rfl, List.mem_cons]
        constructor
        · rintro (heq | hm)
          · injection heq with h1 h2
            rw [h2]
            simp [depsLookup]
          · exact absurd (by simpa using List.mem_map_of_mem Prod.fst hm) hnd.1
        · rintro heq
          injection heq with h1
          subst h1
          exact Or.inl rfl
      · simp only [depsLookup, if_neg ha, List.mem_cons]
        rw [← ih hnd.2]
        constructor
        · rintro (heq | hm)
          · injection heq with h1 h2
            exact absurd h1.symm ha
          · exact hm
        · exact fun hm => Or.inr hm

theorem mem_all_deps_fold (deps : DepMap) (p : String) :
    ∀ acc : List String,
      p ∈ deps.foldl (fun acc e => acc ++ e.2) acc ↔
        (p ∈ acc ∨ ∃ e ∈ deps, p ∈ e.2) := by
  induction deps with
  | nil => intro acc; simp
  | cons e rest ih =>
      intro acc
      simp only [List.foldl_cons]
      rw [ih (acc ++ e.2)]
      simp only [List.mem_append, List.mem_cons]
      constructor
      · rintro ((h | h) | ⟨e', he', hp⟩)
        · exact Or.inl h
        · exact Or.inr ⟨e, Or.inl rfl, h⟩
        · exact Or.inr ⟨e', Or.inr he', hp⟩
      · rintro (h | ⟨e', he' | he', hp⟩)
        · exact Or.inl (Or.inl h)
        · subst he'
          exact Or.inl (Or.inr hp)
        · exact Or.inr ⟨e', he', hp⟩

/-- C9: for every state of the per-agent dependency map (its agent
keys distinct, as in a Python dict), the reverse-dependency view is
the exact inversion of the forward view — agent `a` appears under path
`p` iff `p` is in `a`'s dependency set — and the all-dependencies view
contains exactly the union of every tracked agent's dependency set. -/
theorem C9_dependency_views (deps : DepMap) (hnd : (deps.map Prod.fst).Nodup) :
    (∀ agent p : String,
      agent ∈ (depsLookup (get_reverse_dependencies deps) p).getD [] ↔
        p ∈ (depsLookup deps agent).getD []) ∧
    (∀ p : String, p ∈ get_all_dependencies deps ↔
      ∃ agent, p ∈ (depsLookup deps agent).getD []) := by
  constructor
  · intro agent p
    unfold get_reverse_dependencies
    rw [mem_revLoop deps p agent []]
    simp only [depsLookup, Option.getD_none, List.not_mem_nil, false_or]
    constructor
    · rintro ⟨ps, hps, hp⟩
      rw [(depsLookup_eq_of_nodup hnd agent ps).mp hps]
      simpa using hp
    · intro hp
      cases hl : depsLookup deps agent with
      | none => rw [hl] at hp; simp at hp
      | some ps =>
          rw [hl] at hp
          simp at hp
          exact ⟨ps, (depsLookup_eq_of_nodup hnd agent ps).mpr hl, hp⟩
  · intro p
    unfold get_all_dependencies
    rw [mem_all_deps_fold deps p []]
    simp only [List.not_mem_nil, false_or]
    constructor
    · rintro ⟨⟨agent, ps⟩, he, hp⟩
      refine ⟨agent, ?_⟩
      rw [(depsLookup_eq_of_nodup hnd agent ps).mp he]
      simpa using hp
    · rintro ⟨agent, hp⟩
      cases hl : depsLookup deps agent with
      | none => rw [hl] at hp; simp at hp
      | some ps =>
          rw [hl] at hp
          simp at hp
          exact ⟨(agent, ps), (depsLookup_eq_of_nodup hnd agent ps).mpr hl, hp⟩

theorem C9_dependency_views_witness :
    (∀ agent p : String,
      agent ∈ (depsLookup
          (get_reverse_dependencies [("A", ["X", "Y"]), ("B", ["Y"])]) p).getD [] ↔
        p ∈ (depsLookup [("A", ["X", "Y"]), ("B", ["Y"])] agent).getD []) ∧
    (∀ p : String, p ∈ get_all_dependencies [("A", ["X", "Y"]), ("B", ["Y"])] ↔
      ∃ agent, p ∈ (depsLookup [("A", ["X", "Y"]), ("B", ["Y"])] agent).getD []) :=
  C9_dependency_views [("A", ["X", "Y"]), ("B", ["Y"])] (by decide)
